import Mathlib

/-!
# Gossipify: formal model of the encryption layer, relay, and merge loop

Shallow embedding of the Gossipify repository (TypeScript):

* `client/src/lib/crypto.ts` — base64 helpers, `encryptMessage` /
  `decryptMessage` (tweetnacl `secretbox`), `fingerprintPublicKey`;
* `server/src/index.ts` — the relay's `/register`, `/users/:username`,
  `/send`, `/poll/:username`, `/delete` handlers over its JSON stores;
* `client/src/screens/ChatScreen.tsx` — the polling-loop `setItems`
  merge (message admission, fingerprint isolation, deletion pass, sort);
* `client/src/screens/SettingsScreen.tsx` — the sealed identity
  export/import flow (`deriveKey`, `xorHex`, backup parse).

JavaScript `Uint8Array` bytes are modelled as `Nat` values with explicit
`% 256` where the code stores into byte arrays; strings are Lean
`String`s except in the Settings model, where the byte level matters and
strings are modelled as lists of code units.  Library primitives that are
not part of the repository (XSalsa20, Poly1305, SHA-256) enter as
function parameters, so every theorem quantifying over them holds for
the real primitive in particular.
-/

namespace Gossipify

/-- Byte sequences (`Uint8Array` contents): each entry is intended `< 256`. -/
abbrev Bytes := List Nat

/-! ## Base64 (`crypto.ts` `toBase64` / `fromBase64`, via `Buffer`) -/

/-- The standard base64 alphabet used by `Buffer.toString('base64')`. -/
def b64Alphabet : List Char :=
  "ABCDEFGHIJKLMNOPQRSTUVWXYZabcdefghijklmnopqrstuvwxyz0123456789+/".data

/-- Character for a six-bit group. -/
def sextetChar (n : Nat) : Char := b64Alphabet.getD n 'A'

/-- Position of a character in the base64 alphabet, if any. -/
def b64Index (c : Char) : Option Nat := b64Alphabet.findIdx? (· = c)

/-- Base64-encode a byte list, three bytes to four characters, `=`-padded. -/
def encodeB64 : Bytes → List Char
  | [] => []
  | [a] => [sextetChar (a / 4), sextetChar (a % 4 * 16), '=', '=']
  | [a, b] => [sextetChar (a / 4), sextetChar (a % 4 * 16 + b / 16),
      sextetChar (b % 16 * 4), '=']
  | a :: b :: c :: rest =>
    sextetChar (a / 4) :: sextetChar (a % 4 * 16 + b / 16) ::
      sextetChar (b % 16 * 4 + c / 64) :: sextetChar (c % 64) :: encodeB64 rest

/-- Base64-decode, four characters to three bytes, honouring `=` padding. -/
def decodeB64 : List Char → Bytes
  | c1 :: c2 :: c3 :: c4 :: rest =>
    match b64Index c1, b64Index c2 with
    | some v1, some v2 =>
      let b1 := v1 * 4 + v2 / 16
      if c3 = '=' then [b1]
      else
        match b64Index c3 with
        | some v3 =>
          let b2 := v2 % 16 * 16 + v3 / 4
          if c4 = '=' then [b1, b2]
          else
            match b64Index c4 with
            | some v4 => b1 :: b2 :: (v3 % 4 * 64 + v4) :: decodeB64 rest
            | none => [b1, b2]
        | none => [b1]
    | _, _ => []
  | _ => []

/-- `toBase64` from `crypto.ts`: bytes to a base64 string.  The `% 256`
records that the argument lives in a `Uint8Array`. -/
def toBase64 (bs : Bytes) : String := ⟨encodeB64 (bs.map (· % 256))⟩

/-- `fromBase64` from `crypto.ts`: base64 string to bytes. -/
def fromBase64 (s : String) : Bytes := decodeB64 s.data

/-- `fingerprintPublicKey` from `crypto.ts`: base64 of the first 8 bytes
of the decoded public key. -/
def fingerprintPublicKey (publicKeyB64 : String) : String :=
  toBase64 ((fromBase64 publicKeyB64).take 8)


/-! ## tweetnacl `secretbox` (XSalsa20-Poly1305)

`nacl.secretbox` computes an XSalsa20 keystream from `(key, nonce)`,
uses its first 32 bytes as the Poly1305 one-time key, XORs the message
with the stream starting at offset 32, and prepends the 16-byte Poly1305
tag of the ciphertext.  `nacl.secretbox.open` recomputes and checks the
tag, then XORs again.  The stream and MAC primitives are not repository
code, so they enter as parameters (`NaclPrim`); every theorem below
holds for any instantiation, hence for the real XSalsa20/Poly1305. -/

/-- XOR a byte list against the keystream `ks`, starting at offset `off`. -/
def xorStream (ks : Nat → Nat) (off : Nat) : Bytes → Bytes
  | [] => []
  | b :: bs => ((b % 256) ^^^ (ks off % 256)) :: xorStream ks (off + 1) bs

/-- The two library primitives `tweetnacl` builds `secretbox` from. -/
structure NaclPrim where
  /-- XSalsa20: key, nonce, byte index ↦ keystream byte. -/
  ks : Bytes → Bytes → Nat → Nat
  /-- Poly1305: one-time key, message ↦ 16-byte tag. -/
  mac : Bytes → Bytes → Bytes
  mac_len : ∀ k m, (mac k m).length = 16

/-- `nacl.secretbox msg nonce key`; `none` models the length-check throw. -/
def secretboxSeal (P : NaclPrim) (msg nonce key : Bytes) : Option Bytes :=
  if key.length = 32 ∧ nonce.length = 24 then
    let stream := P.ks key nonce
    let polyKey := (List.range 32).map (fun i => stream i % 256)
    let c := xorStream stream 32 msg
    some ((P.mac polyKey c).map (· % 256) ++ c)
  else none

/-- `nacl.secretbox.open box nonce key`; `none` on length or tag failure. -/
def secretboxOpen (P : NaclPrim) (box nonce key : Bytes) : Option Bytes :=
  if key.length = 32 ∧ nonce.length = 24 then
    if box.length < 16 then none
    else
      let stream := P.ks key nonce
      let polyKey := (List.range 32).map (fun i => stream i % 256)
      let c := box.drop 16
      if box.take 16 = (P.mac polyKey c).map (· % 256) then
        some (xorStream stream 32 c)
      else none
  else none

/-- `encryptMessage` from `crypto.ts`. The fresh random nonce
(`nacl.randomBytes(24)`) is passed in as `nonce`. -/
def encryptMessage (P : NaclPrim) (plaintext key nonce : Bytes) :
    Option (String × String) :=
  (secretboxSeal P plaintext nonce key).map
    (fun box => (toBase64 nonce, toBase64 box))

/-- `decryptMessage` from `crypto.ts` (`opened || null` becomes `Option`). -/
def decryptMessage (P : NaclPrim) (ciphertextB64 nonceB64 : String)
    (key : Bytes) : Option Bytes :=
  secretboxOpen P (fromBase64 ciphertextB64) (fromBase64 nonceB64) key


/-- Concrete instantiation used by the C5 witness. -/
def naclP0 : NaclPrim where
  ks := fun _ _ i => i % 256
  mac := fun _ _ => List.replicate 16 7
  mac_len := by intro k m; simp


/-! ## Handle normalization

Both sides run `String(x || '').trim().toLowerCase()`.  `String.trim`
from core does not reduce in the kernel, so the same operation is
defined here over the character list (ASCII whitespace and case, which
covers every handle the system produces). -/

/-- Whitespace as trimmed by `String.prototype.trim` (ASCII fragment). -/
def isWs (c : Char) : Bool := c = ' ' || c = '\t' || c = '\n' || c = '\r'

/-- Drop leading and trailing whitespace. -/
def trimList (l : List Char) : List Char :=
  ((l.dropWhile isWs).reverse.dropWhile isWs).reverse

/-- ASCII lower-casing of one character. -/
def lowerChar (c : Char) : Char :=
  if 'A' ≤ c ∧ c ≤ 'Z' then Char.ofNat (c.toNat + 32) else c

/-- `String(x).trim().toLowerCase()` — the normalization both client and
relay apply to handles. -/
def normalize (s : String) : String := ⟨(trimList s.data).map lowerChar⟩

/-! ## Relay server (`server/src/index.ts`) -/

namespace Relay

/-- A registered user as stored in `users.json`. -/
structure PublicUser where
  username : String
  publicKey : String
deriving DecidableEq, Repr

/-- A stored message record (`messages.json`). Absent JSON fields are
`none`; `deleted` absent is `false`. -/
structure StoredMessage where
  id : String
  from_ : String
  to_ : String
  ciphertext : String
  nonce : String
  fingerprint : String
  timestamp : Nat
  attachmentId : Option String
  mime : Option String
  name : Option String
  deleted : Bool
  deletedAt : Option Nat
deriving DecidableEq, Repr

/-- Relay state: the `users.json` object (association list in insertion
order, as JavaScript object keys) and the `messages.json` array. -/
structure ServerState where
  users : List (String × PublicUser)
  messages : List StoredMessage
deriving DecidableEq, Repr

/-- JavaScript `users[k] = v`: replace in place, else append. -/
def setKey (l : List (String × PublicUser)) (k : String) (v : PublicUser) :
    List (String × PublicUser) :=
  if l.any (fun p => p.1 = k) then
    l.map (fun p => if p.1 = k then (k, v) else p)
  else l ++ [(k, v)]

/-- JavaScript `users[k]` read. -/
def getKey (l : List (String × PublicUser)) (k : String) : Option PublicUser :=
  (l.find? (fun p => p.1 = k)).map (·.2)

/-- JavaScript `delete users[k]`. -/
def delKey (l : List (String × PublicUser)) (k : String) :
    List (String × PublicUser) :=
  l.filter (fun p => p.1 ≠ k)

/-- Observable result of `POST /register`. -/
inductive RegisterResp
  /-- 400 `username and publicKey are required`. -/
  | missing
  /-- 400 `username cannot be empty`. -/
  | emptyName
  /-- `{ok:true}`. -/
  | ok
deriving DecidableEq, Repr

/-- `app.post('/register')`: missing fields are the empty string. -/
def register (s : ServerState) (username publicKey : String) :
    RegisterResp × ServerState :=
  if username = "" ∨ publicKey = "" then (.missing, s)
  else
    let n := normalize username
    if n = "" then (.emptyName, s)
    else (.ok, { s with users := setKey s.users n ⟨n, publicKey⟩ })

/-- Observable result of `GET /users/:username`. -/
inductive LookupResp
  /-- 404 with the list of available user keys. -/
  | notFound (availableUsers : List String)
  /-- `{username, publicKey}`. -/
  | found (username publicKey : String)
deriving DecidableEq, Repr

/-- `app.get('/users/:username')`, including the case-insensitive
fallback that migrates a legacy key to its lowercase form. -/
def lookup (s : ServerState) (username : String) :
    LookupResp × ServerState :=
  let n := normalize username
  match getKey s.users n with
  | some u => (.found u.username u.publicKey, s)
  | none =>
    match s.users.find? (fun p => normalize p.1 = n) with
    | some ku =>
      let users' := delKey (setKey s.users n ku.2) ku.1
      (.found ku.2.username ku.2.publicKey, { s with users := users' })
    | none => (.notFound (s.users.map (·.1)), s)

/-- `POST /send` request body; absent string fields are `""`, an absent
or non-numeric `timestamp` is `0` (both are falsy in JavaScript). -/
structure SendReq where
  from_ : String
  to_ : String
  ciphertext : String
  nonce : String
  fingerprint : String
  timestamp : Nat
  attachmentId : Option String
  mime : Option String
  name : Option String
deriving DecidableEq, Repr

/-- Observable result of `POST /send`. -/
inductive SendResp
  /-- 400 `missing fields`, with the `details` booleans of the body. -/
  | missingFields (from_ to_ hasCiphertext hasAttachment hasNonce
      hasTimestamp hasFingerprint : Bool)
  /-- 400 `invalid from/to`. -/
  | invalidFromTo
  /-- `{ok:true, id}`. -/
  | ok (id : String)
deriving DecidableEq, Repr

/-- The stored message `send` appends on success (`ciphertext || ''` is
the identity because strings are already the model of absent fields). -/
def mkStored (r : SendReq) (freshId : String) : StoredMessage :=
  ⟨freshId, normalize r.from_, normalize r.to_, r.ciphertext, r.nonce,
    r.fingerprint, r.timestamp, r.attachmentId, r.mime, r.name, false, none⟩

/-- `app.post('/send')`.  `freshId` stands for `nanoid(12)`. -/
def send (s : ServerState) (r : SendReq) (freshId : String) :
    SendResp × ServerState :=
  let hasCiphertext : Bool := (⟨trimList r.ciphertext.data⟩ : String) != ""
  let hasAttachment : Bool := match r.attachmentId with
    | some a => (⟨trimList a.data⟩ : String) != ""
    | none => false
  if r.from_ = "" ∨ r.to_ = "" ∨ (hasCiphertext = false ∧ hasAttachment = false) ∨
      r.nonce = "" ∨ r.timestamp = 0 ∨ r.fingerprint = "" then
    (.missingFields (r.from_ != "") (r.to_ != "") hasCiphertext
      hasAttachment (r.nonce != "") (r.timestamp != 0)
      (r.fingerprint != ""), s)
  else
    let nf := normalize r.from_
    let nt := normalize r.to_
    if nf = "" ∨ nt = "" ∨ nf = nt then (.invalidFromTo, s)
    else (.ok freshId, { s with messages := s.messages ++ [mkStored r freshId] })

/-- One entry of the poll response's `deletions` array. -/
structure PollDeletion where
  id : String
  deletedAt : Option Nat
deriving DecidableEq, Repr

/-- Body of `GET /poll/:username?since=`. -/
structure PollBody where
  messages : List StoredMessage
  deletions : List PollDeletion
deriving DecidableEq, Repr

/-- `app.get('/poll/:username')`: live messages involving the user with
`timestamp ≥ since`, plus tombstones with `deletedAt ≥ since`. -/
def poll (s : ServerState) (username : String) (since : Nat) : PollBody :=
  let u := normalize username
  { messages := s.messages.filter (fun m =>
      (normalize m.to_ = u ∨ normalize m.from_ = u) ∧
        since ≤ m.timestamp ∧ m.deleted = false)
    deletions := (s.messages.filter (fun m =>
      (normalize m.to_ = u ∨ normalize m.from_ = u) ∧
        m.deleted = true ∧ since ≤ m.deletedAt.getD 0)).map
      (fun m => ⟨m.id, m.deletedAt⟩) }

/-- Observable result of `POST /delete`. -/
inductive DeleteResp
  /-- 400 `id and requester required`. -/
  | missing
  /-- 404 `not found`. -/
  | notFound
  /-- `{ok:true}`. -/
  | ok
deriving DecidableEq, Repr

/-- `findIndex` + in-place tombstoning of the first record whose `id`
matches and whose stored `from`/`to` equals the normalized requester. -/
def deleteFirst (id nr : String) (now : Nat) :
    List StoredMessage → Option (List StoredMessage)
  | [] => none
  | m :: ms =>
    if m.id = id ∧ (m.from_ = nr ∨ m.to_ = nr) then
      some ({ m with deleted := true, deletedAt := some now } :: ms)
    else (deleteFirst id nr now ms).map (m :: ·)

/-- `app.post('/delete')`.  `now` stands for `Date.now()`. -/
def deleteMsg (s : ServerState) (id requester : String) (now : Nat) :
    DeleteResp × ServerState :=
  if id = "" ∨ requester = "" then (.missing, s)
  else
    match deleteFirst id (normalize requester) now s.messages with
    | none => (.notFound, s)
    | some ms => (.ok, { s with messages := ms })

/-- A state-changing relay request (`poll` is read-only; `upload` and
`download` never touch `users.json` / `messages.json`). -/
inductive ServerOp
  | register (username publicKey : String)
  | lookup (username : String)
  | send (r : SendReq) (freshId : String)
  | deleteMsg (id requester : String) (now : Nat)
deriving DecidableEq, Repr

/-- State after one request. -/
def applyOp (s : ServerState) : ServerOp → ServerState
  | .register u pk => (register s u pk).2
  | .lookup u => (lookup s u).2
  | .send r fid => (send s r fid).2
  | .deleteMsg id req now => (deleteMsg s id req now).2

/-- State after a request sequence. -/
def applyOps (s : ServerState) (ops : List ServerOp) : ServerState :=
  ops.foldl applyOp s

/-- `nanoid(12)` freshness: a `send`'s assigned id is unused. -/
def FreshOp (s : ServerState) : ServerOp → Prop
  | .send _ fid => fid ∉ s.messages.map (·.id)
  | _ => True

/-- Every `send` in the sequence is fresh at the moment it executes. -/
def FreshSends (s : ServerState) : List ServerOp → Prop
  | [] => True
  | op :: ops => FreshOp s op ∧ FreshSends (applyOp s op) ops

/-- Every stored record with this id is tombstoned (`deleted` set,
`deletedAt` present). -/
def Tombstoned (s : ServerState) (id : String) : Prop :=
  ∀ m ∈ s.messages, m.id = id → m.deleted = true ∧ m.deletedAt.isSome = true

/-- A record with this id exists, and every record carrying it is
tombstoned. -/
def HasTombstone (s : ServerState) (id : String) : Prop :=
  id ∈ s.messages.map (·.id) ∧ Tombstoned s id

/-- `attachmentId && attachmentId.trim().length > 0` is false. -/
def attTrimEmpty : Option String → Bool
  | some a => (⟨trimList a.data⟩ : String) == ""
  | none => true

/-- The exact rejection condition of `app.post('/send')`: a falsy
required field (absent/empty strings, absent/zero timestamp), no
post-trim-non-blank ciphertext or attachment id, or `from`/`to`
normalizing to empty or to each other. -/
def sendRejectCode (r : SendReq) : Prop :=
  r.from_ = "" ∨ r.to_ = "" ∨
  ((⟨trimList r.ciphertext.data⟩ : String) = "" ∧ attTrimEmpty r.attachmentId = true) ∨
  r.nonce = "" ∨ r.timestamp = 0 ∨ r.fingerprint = "" ∨
  normalize r.from_ = "" ∨ normalize r.to_ = "" ∨
  normalize r.from_ = normalize r.to_

/-- Modelled from the words of claim C7 / the spec's §6 table: 400 when
`from == to` (after normalization), neither a non-empty `ciphertext` nor
an attachment reference is present, or a required field is missing
(absent strings are `""`, an absent timestamp is `0`).  Used only for
the refinement comparison against `send`. -/
def sendRejectsSpec (r : SendReq) : Prop :=
  normalize r.from_ = normalize r.to_ ∨
  (r.ciphertext = "" ∧ (r.attachmentId = none ∨ r.attachmentId = some "")) ∨
  r.from_ = "" ∨ r.to_ = "" ∨ r.nonce = "" ∨ r.fingerprint = "" ∨
  r.timestamp = 0

instance (r : SendReq) : Decidable (sendRejectCode r) := by
  unfold sendRejectCode
  infer_instance

instance (r : SendReq) : Decidable (sendRejectsSpec r) := by
  unfold sendRejectsSpec
  infer_instance

instance (s : ServerState) (op : ServerOp) : Decidable (FreshOp s op) := by
  cases op <;> (unfold FreshOp; infer_instance)

instance decFreshSends : (ops : List ServerOp) → (s : ServerState) →
    Decidable (FreshSends s ops)
  | [], _ => .isTrue trivial
  | op :: ops, s =>
    haveI : Decidable (FreshSends (applyOp s op) ops) :=
      decFreshSends ops (applyOp s op)
    show Decidable (FreshOp s op ∧ FreshSends (applyOp s op) ops) from
      inferInstance

end Relay

/-! ## ChatScreen polling-loop merge (`ChatScreen.tsx`, `setItems` updater)

The updater receives the previous timeline and the poll response and
returns the new timeline.  Free parameters: `dec` stands for
`decryptMessage(·, ·, key)` for the conversation key in scope, and
`utf8` for `Buffer.from(·).toString('utf8')`; the theorems hold for any
instantiation.  `myUsername`/`currentPeer` are the normalized local and
peer handles computed by the loop, `peerFp` the resolved peer
fingerprint (`''` when no peer key is resolved), and `tempId` the
`sendingMessageId` of an optimistically sent message. -/

namespace Chat

/-- The `attachment` payload of a timeline item. -/
structure Attachment where
  id : String
  nonce : String
  name : String
  mime : Option String
deriving DecidableEq, Repr

/-- The `status` union of a timeline item. -/
inductive MsgStatus
  | sending
  | sent
  | delivered
  | read
  | deleted
deriving DecidableEq, Repr

/-- One timeline entry (`ChatItem` in `ChatScreen.tsx`); absent optional
fields are `none`. -/
structure ChatItem where
  id : String
  fromMe : Bool
  text : String
  timestamp : Nat
  attachment : Option Attachment
  status : Option MsgStatus
  isDecrypting : Option Bool
deriving DecidableEq, Repr

/-- The poll response as the client consumes it: the relay's records,
plus `deletions` when present and an array. -/
structure PollResp where
  messages : List Relay.StoredMessage
  deletions : Option (List Relay.PollDeletion)
deriving DecidableEq, Repr

/-- JavaScript `o || d` for possibly-absent strings. -/
def jsOrStr (o : Option String) (d : String) : String :=
  match o with
  | some s => if s = "" then d else s
  | none => d

/-- JavaScript `o || null` for possibly-absent strings. -/
def jsOrNull (o : Option String) : Option String :=
  match o with
  | some s => if s = "" then none else some s
  | none => none

/-- `m.attachmentId ? {id, nonce, name: name || 'Attachment',
mime: mime || null} : null`, shared by both push sites. -/
def mkAttachment (m : Relay.StoredMessage) : Option Attachment :=
  match m.attachmentId with
  | some a => if a = "" then none
      else some ⟨a, m.nonce, jsOrStr m.name "Attachment", jsOrNull m.mime⟩
  | none => none

/-- `.sort((a, b) => a.timestamp - b.timestamp)`: a stable sort by
timestamp (the result JavaScript guarantees for a consistent
comparator). -/
def jsSort (l : List ChatItem) : List ChatItem :=
  List.insertionSort (fun a b => a.timestamp ≤ b.timestamp) l

/-- Truthiness of the nullable `sendingMessageId`. -/
def tempTruthy : Option String → Bool
  | some t => t != ""
  | none => false

/-- `m.ciphertext && m.ciphertext.trim().length > 0`. -/
def needsDec (m : Relay.StoredMessage) : Prop :=
  m.ciphertext ≠ "" ∧ (⟨trimList m.ciphertext.data⟩ : String) ≠ ""

instance (m : Relay.StoredMessage) : Decidable (needsDec m) := by
  unfold needsDec
  infer_instance

/-- The item pushed for an own echoed message (`isFromMeToPeer`):
decrypt, defaulting to the empty buffer on failure. -/
def ownItem (dec : String → String → Option Bytes) (utf8 : Bytes → String)
    (m : Relay.StoredMessage) : ChatItem :=
  ⟨m.id, true,
    (if m.ciphertext = "" then "" else utf8 ((dec m.ciphertext m.nonce).getD [])),
    m.timestamp, mkAttachment m, some .sent, none⟩

/-- `decryptedText || (m.attachmentId ? (name || 'Attachment') : '')`. -/
def peerText (dt : Option String) (m : Relay.StoredMessage) : String :=
  let alt := match m.attachmentId with
    | some a => if a = "" then "" else jsOrStr m.name "Attachment"
    | none => ""
  match dt with
  | some t => if t = "" then alt else t
  | none => alt

/-- The item pushed for a peer message (`isFromPeerToMe`). -/
def peerItem (dt : Option String) (m : Relay.StoredMessage) : ChatItem :=
  ⟨m.id, false, peerText dt m, m.timestamp, mkAttachment m, none, none⟩

/-- One iteration of the admission loop over `r.messages`: either the
early `return` of the pending-send replacement (left), or the updated
`(existing, next)` accumulator (right). -/
def step1 (dec : String → String → Option Bytes) (utf8 : Bytes → String)
    (myUsername currentPeer peerFp : String) (tempId : Option String)
    (m : Relay.StoredMessage) (existing : List String)
    (next : List ChatItem) : (List ChatItem) ⊕ (List String × List ChatItem) :=
  if existing.contains m.id then .inr (existing, next)
  else
    let msgFrom := normalize m.from_
    let msgTo := normalize m.to_
    let isFromMeToPeer := msgFrom = myUsername ∧ msgTo = currentPeer
    let isFromPeerToMe := msgFrom = currentPeer ∧ msgTo = myUsername
    if ¬isFromMeToPeer ∧ ¬isFromPeerToMe then .inr (existing, next)
    else if isFromMeToPeer then
      if tempTruthy tempId = true ∧ m.id ≠ "" then
        .inl (jsSort (next.map (fun item =>
          if item.id = tempId.getD "" then
            { item with id := m.id, status := some .sent }
          else item)))
      else .inr (m.id :: existing, next ++ [ownItem dec utf8 m])
    else
      if m.fingerprint ≠ "" ∧ peerFp ≠ "" ∧ m.fingerprint ≠ peerFp then
        .inr (existing, next)
      else if needsDec m then
        match dec m.ciphertext m.nonce with
        | none => .inr (existing, next)
        | some bs => .inr (m.id :: existing, next ++ [peerItem (some (utf8 bs)) m])
      else .inr (m.id :: existing, next ++ [peerItem none m])

/-- The admission loop (`for (const m of r.messages) …`). -/
def mergeLoop (dec : String → String → Option Bytes) (utf8 : Bytes → String)
    (myUsername currentPeer peerFp : String) (tempId : Option String) :
    List Relay.StoredMessage → List String → List ChatItem →
      (List ChatItem) ⊕ (List ChatItem)
  | [], _, next => .inr next
  | m :: ms, existing, next =>
    match step1 dec utf8 myUsername currentPeer peerFp tempId m existing next with
    | .inl early => .inl early
    | .inr (e, n) => mergeLoop dec utf8 myUsername currentPeer peerFp tempId ms e n

/-- `peerPubRef.current ? fingerprintPublicKey(peerPubRef.current) : ''`. -/
def peerFpOf : Option String → String
  | some p => fingerprintPublicKey p
  | none => ""

/-- `r.deletions.find(d => d.id === i.id)` is truthy. -/
def delHit (ds : List Relay.PollDeletion) (i : ChatItem) : Prop :=
  ∃ d ∈ ds, d.id = i.id

instance (ds : List Relay.PollDeletion) (i : ChatItem) :
    Decidable (delHit ds i) := by
  unfold delHit
  infer_instance

/-- The whole `setItems` updater of the polling loop: admission pass,
deletion pass, and the final sort (every exit path sorts). -/
def mergeStep (dec : String → String → Option Bytes) (utf8 : Bytes → String)
    (user peerUsername : String) (peerPub : Option String)
    (tempId : Option String) (prev : List ChatItem) (r : PollResp) :
    List ChatItem :=
  let myUsername := normalize user
  let currentPeer := normalize peerUsername
  let peerFp := peerFpOf peerPub
  match mergeLoop dec utf8 myUsername currentPeer peerFp tempId
      r.messages (prev.map (·.id)) prev with
  | .inl early => early
  | .inr next =>
    match r.deletions with
    | some ds => jsSort (next.filter (fun i => ¬ delHit ds i))
    | none => jsSort next

/-- The directed-pair admission test of the merge. -/
def pairOk (myUsername currentPeer : String) (m : Relay.StoredMessage) : Bool :=
  decide ((normalize m.from_ = myUsername ∧ normalize m.to_ = currentPeer) ∨
    (normalize m.from_ = currentPeer ∧ normalize m.to_ = myUsername))

/-- A peer-addressed record that the fingerprint check rejects: both
fingerprints are non-empty and differ. -/
def fpBlocked (myUsername currentPeer peerFp : String)
    (m : Relay.StoredMessage) : Bool :=
  decide (¬(normalize m.from_ = myUsername ∧ normalize m.to_ = currentPeer) ∧
    (normalize m.from_ = currentPeer ∧ normalize m.to_ = myUsername) ∧
    m.fingerprint ≠ "" ∧ peerFp ≠ "" ∧ m.fingerprint ≠ peerFp)

/-- Whether a (non-deduplicated) record gets pushed when no pending send
is outstanding. -/
def admits (dec : String → String → Option Bytes)
    (myUsername currentPeer peerFp : String)
    (m : Relay.StoredMessage) : Bool :=
  if normalize m.from_ = myUsername ∧ normalize m.to_ = currentPeer then true
  else if normalize m.from_ = currentPeer ∧ normalize m.to_ = myUsername then
    if m.fingerprint ≠ "" ∧ peerFp ≠ "" ∧ m.fingerprint ≠ peerFp then false
    else if needsDec m then (dec m.ciphertext m.nonce).isSome
    else true
  else false

/-- The item an admitted record contributes. -/
def mkItem (dec : String → String → Option Bytes) (utf8 : Bytes → String)
    (myUsername currentPeer : String) (m : Relay.StoredMessage) : ChatItem :=
  if normalize m.from_ = myUsername ∧ normalize m.to_ = currentPeer then
    ownItem dec utf8 m
  else
    peerItem (if needsDec m then (dec m.ciphertext m.nonce).map utf8 else none) m

/-- The suffix of items the admission pass appends (no pending send). -/
def admitList (dec : String → String → Option Bytes) (utf8 : Bytes → String)
    (myUsername currentPeer peerFp : String) :
    List Relay.StoredMessage → List String → List ChatItem
  | [], _ => []
  | m :: ms, existing =>
    if existing.contains m.id then
      admitList dec utf8 myUsername currentPeer peerFp ms existing
    else if admits dec myUsername currentPeer peerFp m then
      mkItem dec utf8 myUsername currentPeer m ::
        admitList dec utf8 myUsername currentPeer peerFp ms (m.id :: existing)
    else admitList dec utf8 myUsername currentPeer peerFp ms existing

/-- Lexicographic code-unit comparison, JavaScript `a < b` on strings. -/
def strLtB : List Char → List Char → Bool
  | [], [] => false
  | [], _ :: _ => true
  | _ :: _, [] => false
  | c :: cs, d :: ds =>
    if c.toNat < d.toNat then true
    else if d.toNat < c.toNat then false
    else strLtB cs ds

/-- Concrete decrypt used by counterexamples: always fails. -/
def decNone : String → String → Option Bytes := fun _ _ => none

/-- Concrete UTF-8 decode used by counterexamples. -/
def utf8Empty : Bytes → String := fun _ => ""

instance : IsTotal ChatItem (fun a b => a.timestamp ≤ b.timestamp) :=
  ⟨fun a b => Nat.le_total a.timestamp b.timestamp⟩

instance : IsTrans ChatItem (fun a b => a.timestamp ≤ b.timestamp) :=
  ⟨fun _ _ _ hab hbc => Nat.le_trans hab hbc⟩

end Chat

/-! ## Settings sealed identity export/import (`SettingsScreen.tsx`)

`onExport` JSON-stringifies the keypair, hex-encodes it, and XORs the
hex string with a mask derived from the hardcoded passphrase by 10000
iterations of SHA-256 (`deriveKey`); `onImport` reverses the steps and
stores whatever parses.  Strings are modelled as lists of code units
(`JSStr`), so the UTF-8 encode/decode of the ASCII payload is the
identity; SHA-256 (`expo-crypto`) enters as the parameter `sha`. -/

namespace Settings

/-- A JavaScript string as its list of code units. -/
abbrev JSStr := List Nat

/-- Code units of an ASCII literal. -/
def strBytes (s : String) : JSStr := s.data.map (·.toNat)

/-- `n.toString(16)` digit (lowercase). -/
def hexDigit (n : Nat) : Nat := if n < 10 then 48 + n else 87 + n

/-- `x.toString(16).padStart(2, '0')` for a byte value. -/
def byteToHexJS (b : Nat) : JSStr := [hexDigit (b / 16), hexDigit (b % 16)]

/-- `Buffer.from(bytes).toString('hex')`. -/
def bytesToHex (bs : List Nat) : JSStr :=
  (bs.map (fun b => byteToHexJS (b % 256))).flatten

/-- Value of one hex character, if any (`parseInt` accepts both cases). -/
def hexVal (c : Nat) : Option Nat :=
  if 48 ≤ c ∧ c ≤ 57 then some (c - 48)
  else if 97 ≤ c ∧ c ≤ 102 then some (c - 87)
  else if 65 ≤ c ∧ c ≤ 70 then some (c - 55)
  else none

/-- `parseInt(s.substr(i, 2), 16)` with its prefix semantics; `NaN`
behaves as `0` under the `^` that consumes the result. -/
def parseHexPrefix2 : JSStr → Nat
  | [c1, c2] =>
    (match hexVal c1 with
     | none => 0
     | some v1 =>
       match hexVal c2 with
       | none => v1
       | some v2 => 16 * v1 + v2)
  | [c1] => (hexVal c1).getD 0
  | _ => 0

/-- `xorHex` from `SettingsScreen.tsx`: `for (i = 0; i < min(len);
i += 2)` take `substr(i, 2)` of each string, XOR their parsed values,
emit two padded hex digits.  Rendered as structural recursion consuming
two code units of each string per step: the loop runs again exactly when
both remainders are non-empty. -/
def xorHexGo : JSStr → JSStr → JSStr
  | c1 :: a, d1 :: b =>
    byteToHexJS (parseHexPrefix2 (c1 :: a.take 1) ^^^
      parseHexPrefix2 (d1 :: b.take 1)) ++
      (match a, b with
       | _ :: a2, _ :: b2 => xorHexGo a2 b2
       | _, _ => [])
  | _, _ => []

/-- `xorHex(a, b)`. -/
def xorHex (a b : JSStr) : JSStr := xorHexGo a b

/-- `deriveKey('demo-passphrase')`: 10000 iterations of hex SHA-256 over
the hardcoded passphrase; `sha` is the digest primitive. -/
def deriveKey (sha : JSStr → JSStr) : JSStr :=
  sha^[10000] (strBytes "demo-passphrase")

/-- `k.repeat(Math.ceil(len / k.length)).slice(0, len)`. -/
def maskFor (k : JSStr) (len : Nat) : JSStr :=
  ((List.replicate ((len + k.length - 1) / k.length) k).flatten).take len

/-- The client keypair (`KeyPairBase64`), at code-unit level. -/
structure KeyPairB where
  publicKey : JSStr
  secretKey : JSStr
deriving DecidableEq, Repr

/-- `JSON.stringify(kp)` for the keypair object (fields in declaration
order; base64 strings need no escaping). -/
def jsonStringifyKP (kp : KeyPairB) : JSStr :=
  strBytes "\x7b\"publicKey\":\"" ++ kp.publicKey ++
    strBytes "\",\"secretKey\":\"" ++ kp.secretKey ++ strBytes "\"\x7d"

/-- Read a JSON string body up to the closing quote; escapes are not
generated by the serializer, so a backslash fails the parse. -/
def takeStr : JSStr → Option (JSStr × JSStr)
  | [] => none
  | c :: cs =>
    if c = 34 then some ([], cs)
    else if c = 92 then none
    else (takeStr cs).map (fun p => (c :: p.1, p.2))

/-- Consume an expected literal. -/
def dropLit : JSStr → JSStr → Option JSStr
  | [], s => some s
  | _, [] => none
  | l :: ls, c :: cs => if c = l then dropLit ls cs else none

/-- `JSON.parse` restricted to the exact shape the export writes — the
sound fragment the import flow relies on. -/
def jsonParseKP (s : JSStr) : Option KeyPairB :=
  match dropLit (strBytes "\x7b\"publicKey\":\"") s with
  | none => none
  | some s1 =>
    match takeStr s1 with
    | none => none
    | some (pk, s2) =>
      match dropLit (strBytes ",\"secretKey\":\"") s2 with
      | none => none
      | some s3 =>
        match takeStr s3 with
        | none => none
        | some (sk, s4) =>
          if s4 = strBytes "\x7d" then some ⟨pk, sk⟩ else none

/-- `Buffer.from(hex, 'hex')`: decode pairs, stop at the first invalid
pair or odd tail. -/
def hexToBytes : JSStr → List Nat
  | c1 :: c2 :: rest =>
    (match hexVal c1, hexVal c2 with
     | some v1, some v2 => (16 * v1 + v2) :: hexToBytes rest
     | _, _ => [])
  | _ => []

/-- `onExport`'s sealed blob for a stored keypair. -/
def exportSealed (sha : JSStr → JSStr) (kp : KeyPairB) : JSStr :=
  let payloadHex := bytesToHex (jsonStringifyKP kp)
  xorHex payloadHex (maskFor (deriveKey sha) payloadHex.length)

/-- `onImport` on a sealed blob: `some kp` means `storeKeypair(kp)` runs;
`none` means a parse exception was caught and nothing was stored. -/
def importSealed (sha : JSStr → JSStr) (sealed : JSStr) : Option KeyPairB :=
  jsonParseKP (hexToBytes
    (xorHex sealed (maskFor (deriveKey sha) sealed.length)))

/-- Concrete digest for the C8 counterexample: a constant hex string of
64 zeros (any digest exhibits the same flaw — the mask cancels). -/
def sha0 : JSStr → JSStr := fun _ => List.replicate 64 48

/-- Concrete keypair for the C8 counterexample. -/
def kp0 : KeyPairB := ⟨strBytes "AAAA", strBytes "BBBB"⟩

end Settings

/-! ## Theorems: base64 and secretbox -/

lemma b64Index_sextetChar {n : Nat} (h : n < 64) :
    b64Index (sextetChar n) = some n := by
  have hall : ∀ m ∈ List.range 64, b64Index (sextetChar m) = some m := by decide
  exact hall n (List.mem_range.mpr h)

lemma sextetChar_ne_pad {n : Nat} (h : n < 64) : sextetChar n ≠ '=' := by
  have hall : ∀ m ∈ List.range 64, sextetChar m ≠ '=' := by decide
  exact hall n (List.mem_range.mpr h)

/-- Decoding inverts encoding on genuine byte lists. -/
theorem decodeB64_encodeB64 : ∀ bs : Bytes, (∀ b ∈ bs, b < 256) →
    decodeB64 (encodeB64 bs) = bs
  | [], _ => rfl
  | [a], h => by
    have ha : a < 256 := h a (by simp)
    have h1 : a / 4 < 64 := by omega
    have h2 : a % 4 * 16 < 64 := by omega
    simp only [encodeB64, decodeB64, b64Index_sextetChar h1, b64Index_sextetChar h2,
      eq_self_iff_true, if_true, List.cons.injEq, and_true]
    omega
  | [a, b], h => by
    have ha : a < 256 := h a (by simp)
    have hb : b < 256 := h b (by simp)
    have h1 : a / 4 < 64 := by omega
    have h2 : a % 4 * 16 + b / 16 < 64 := by omega
    have h3 : b % 16 * 4 < 64 := by omega
    simp only [encodeB64, decodeB64, b64Index_sextetChar h1, b64Index_sextetChar h2,
      b64Index_sextetChar h3, if_neg (sextetChar_ne_pad h3), eq_self_iff_true, if_true,
      List.cons.injEq, and_true]
    omega
  | a :: b :: c :: rest, h => by
    have ha : a < 256 := h a (by simp)
    have hb : b < 256 := h b (by simp)
    have hc : c < 256 := h c (by simp)
    have h1 : a / 4 < 64 := by omega
    have h2 : a % 4 * 16 + b / 16 < 64 := by omega
    have h3 : b % 16 * 4 + c / 64 < 64 := by omega
    have h4 : c % 64 < 64 := by omega
    have ih := decodeB64_encodeB64 rest (fun x hx => h x (by simp [hx]))
    simp only [encodeB64, decodeB64, b64Index_sextetChar h1, b64Index_sextetChar h2,
      b64Index_sextetChar h3, b64Index_sextetChar h4,
      if_neg (sextetChar_ne_pad h3), if_neg (sextetChar_ne_pad h4), ih,
      List.cons.injEq, and_true]
    omega

/-- Byte-level round trip for the string wrappers. -/
theorem fromBase64_toBase64 (bs : Bytes) (h : ∀ b ∈ bs, b < 256) :
    fromBase64 (toBase64 bs) = bs := by
  have hid : bs.map (· % 256) = bs := by
    have := List.map_congr_left (l := bs) (f := (· % 256)) (g := id)
      (fun x hx => Nat.mod_eq_of_lt (h x hx))
    simpa using this
  simp only [fromBase64, toBase64]
  rw [hid, decodeB64_encodeB64 bs h]

lemma xorStream_length (ks : Nat → Nat) (off : Nat) (bs : Bytes) :
    (xorStream ks off bs).length = bs.length := by
  induction bs generalizing off with
  | nil => rfl
  | cons b bs ih => simp [xorStream, ih]

lemma xorStream_lt (ks : Nat → Nat) (off : Nat) (bs : Bytes) :
    ∀ x ∈ xorStream ks off bs, x < 256 := by
  induction bs generalizing off with
  | nil => intro x hx; simp [xorStream] at hx
  | cons b bs ih =>
    intro x hx
    simp only [xorStream, List.mem_cons] at hx
    rcases hx with h | h
    · subst h
      have h256 : (256 : Nat) = 2 ^ 8 := by norm_num
      rw [h256]
      exact Nat.xor_lt_two_pow (by omega) (by omega)
    · exact ih (off + 1) x h

lemma xorStream_involutive (ks : Nat → Nat) (off : Nat) (bs : Bytes)
    (h : ∀ b ∈ bs, b < 256) :
    xorStream ks off (xorStream ks off bs) = bs := by
  induction bs generalizing off with
  | nil => rfl
  | cons b bs ih =>
    have hb : b < 256 := h b (by simp)
    have hx : (b % 256) ^^^ (ks off % 256) < 256 := by
      have h256 : (256 : Nat) = 2 ^ 8 := by norm_num
      rw [h256]
      exact Nat.xor_lt_two_pow (by omega) (by omega)
    simp only [xorStream, List.cons.injEq]
    refine ⟨?_, ih (off + 1) (fun x hx => h x (by simp [hx]))⟩
    rw [Nat.mod_eq_of_lt hx, Nat.xor_cancel_right, Nat.mod_eq_of_lt hb]

/-- **C5.** Encryption round-trip: whenever `encryptMessage` on plaintext
`p` with a 32-byte key and the fresh 24-byte random nonce produces
`{nonce, ciphertext}`, `decryptMessage ciphertext nonce key` recovers
exactly `p` (not `none`), for any XSalsa20/Poly1305 instantiation. -/
theorem C5_encrypt_decrypt_roundtrip (P : NaclPrim) (p key nonce : Bytes)
    (hp : ∀ b ∈ p, b < 256) (hkey : key.length = 32)
    (hnonce : nonce.length = 24) (hnb : ∀ b ∈ nonce, b < 256)
    (nB64 cB64 : String)
    (henc : encryptMessage P p key nonce = some (nB64, cB64)) :
    decryptMessage P cB64 nB64 key = some p := by
  set stream := P.ks key nonce with hstream
  set polyKey := (List.range 32).map (fun i => stream i % 256) with hpk
  set c := xorStream stream 32 p with hc
  set tagB := (P.mac polyKey c).map (· % 256) with htag
  have hseal : secretboxSeal P p nonce key = some (tagB ++ c) := by
    rw [secretboxSeal, if_pos ⟨hkey, hnonce⟩]
  have henc' : encryptMessage P p key nonce =
      some (toBase64 nonce, toBase64 (tagB ++ c)) := by
    rw [encryptMessage, hseal]
    rfl
  rw [henc'] at henc
  obtain ⟨hn, hcip⟩ := Prod.mk.injEq .. ▸ Option.some.injEq .. ▸ henc
  have hboxlt : ∀ b ∈ tagB ++ c, b < 256 := by
    intro b hb
    rcases List.mem_append.mp hb with h | h
    · obtain ⟨y, _, hy⟩ := List.mem_map.mp h
      omega
    · exact xorStream_lt _ _ _ b h
  have htagLen : tagB.length = 16 := by
    rw [htag, List.length_map, P.mac_len]
  rw [decryptMessage, ← hn, ← hcip, fromBase64_toBase64 _ hboxlt,
    fromBase64_toBase64 _ hnb, secretboxOpen, if_pos ⟨hkey, hnonce⟩]
  have hlen : (tagB ++ c).length = 16 + p.length := by
    simp [htagLen, hc, xorStream_length]
  rw [if_neg (by omega)]
  simp only [List.drop_left' htagLen, List.take_left' htagLen, ← hstream, ← hpk,
    ← htag, eq_self_iff_true, if_true]
  rw [hc, xorStream_involutive _ _ _ hp]

/-- Witness for C5 at a concrete plaintext, key, and nonce. -/
theorem C5_encrypt_decrypt_roundtrip_witness :
    (∀ b ∈ ([104, 105] : Bytes), b < 256) ∧
    (List.replicate 32 0 : Bytes).length = 32 ∧
    decryptMessage naclP0
      (toBase64 ((secretboxSeal naclP0 [104, 105] (List.range 24)
        (List.replicate 32 0)).getD []))
      (toBase64 (List.range 24)) (List.replicate 32 0) = some [104, 105] :=
  ⟨by decide, by decide,
    C5_encrypt_decrypt_roundtrip naclP0 [104, 105] (List.replicate 32 0)
      (List.range 24) (by decide) (by decide) (by decide) (by decide) _ _ rfl⟩

/-! ## Theorems: relay server -/

namespace Relay

lemma ne_empty_of_normalize_ne {s : String} (h : normalize s ≠ "") : s ≠ "" := by
  intro he
  subst he
  exact h rfl

lemma register_messages (s : ServerState) (u pk : String) :
    ((register s u pk).2).messages = s.messages := by
  simp only [register]
  split
  · rfl
  · split <;> rfl

lemma lookup_messages (s : ServerState) (u : String) :
    ((lookup s u).2).messages = s.messages := by
  simp only [lookup]
  split
  · rfl
  · split <;> rfl

lemma deleteFirst_id_mem {id nr : String} {now : Nat} :
    ∀ {ms ms' : List StoredMessage}, deleteFirst id nr now ms = some ms' →
      id ∈ ms.map (·.id)
  | [], _, h => by simp [deleteFirst] at h
  | m :: ms, ms', h => by
    rw [deleteFirst] at h
    by_cases hc : m.id = id ∧ (m.from_ = nr ∨ m.to_ = nr)
    · simp [hc.1]
    · rw [if_neg hc] at h
      obtain ⟨t, ht, -⟩ := Option.map_eq_some'.mp h
      simpa using Or.inr (deleteFirst_id_mem ht)

lemma deleteFirst_ids {id nr : String} {now : Nat} :
    ∀ {ms ms' : List StoredMessage}, deleteFirst id nr now ms = some ms' →
      ms'.map (·.id) = ms.map (·.id)
  | [], _, h => by simp [deleteFirst] at h
  | m :: ms, ms', h => by
    rw [deleteFirst] at h
    by_cases hc : m.id = id ∧ (m.from_ = nr ∨ m.to_ = nr)
    · rw [if_pos hc] at h
      cases h
      simp
    · rw [if_neg hc] at h
      obtain ⟨t, ht, hmap⟩ := Option.map_eq_some'.mp h
      subst hmap
      simp [deleteFirst_ids ht]

lemma deleteFirst_shape {id nr : String} {now : Nat} :
    ∀ {ms ms' : List StoredMessage}, deleteFirst id nr now ms = some ms' →
      ∀ m' ∈ ms', m' ∈ ms ∨
        (m'.id = id ∧ m'.deleted = true ∧ m'.deletedAt = some now)
  | [], _, h => by simp [deleteFirst] at h
  | m :: ms, ms', h => by
    rw [deleteFirst] at h
    by_cases hc : m.id = id ∧ (m.from_ = nr ∨ m.to_ = nr)
    · rw [if_pos hc] at h
      cases h
      intro m' hm'
      rcases List.mem_cons.mp hm' with hm' | hm'
      · exact Or.inr (by simp [hm', hc.1])
      · exact Or.inl (List.mem_cons_of_mem _ hm')
    · rw [if_neg hc] at h
      obtain ⟨t, ht, hmap⟩ := Option.map_eq_some'.mp h
      subst hmap
      intro m' hm'
      rcases List.mem_cons.mp hm' with hm' | hm'
      · exact Or.inl (by simp [hm'])
      · rcases deleteFirst_shape ht m' hm' with h' | h'
        · exact Or.inl (List.mem_cons_of_mem _ h')
        · exact Or.inr h'

lemma deleteFirst_tombstones {id nr : String} {now : Nat} :
    ∀ {ms ms' : List StoredMessage}, (ms.map (·.id)).Nodup →
      deleteFirst id nr now ms = some ms' →
      ∀ m' ∈ ms', m'.id = id → m'.deleted = true ∧ m'.deletedAt.isSome = true
  | [], _, _, h => by simp [deleteFirst] at h
  | m :: ms, ms', huniq, h => by
    rw [deleteFirst] at h
    have hcons := huniq
    rw [List.map_cons, List.nodup_cons] at hcons
    have hhead : m.id ∉ ms.map (·.id) := hcons.1
    by_cases hc : m.id = id ∧ (m.from_ = nr ∨ m.to_ = nr)
    · rw [if_pos hc] at h
      cases h
      intro m' hm' hid
      rcases List.mem_cons.mp hm' with hm' | hm'
      · simp [hm']
      · exact absurd (List.mem_map.mpr ⟨m', hm', by rw [hid, hc.1]⟩) hhead
    · rw [if_neg hc] at h
      obtain ⟨t, ht, hmap⟩ := Option.map_eq_some'.mp h
      subst hmap
      intro m' hm' hid
      rcases List.mem_cons.mp hm' with hm' | hm'
      · subst hm'
        exact absurd (hid ▸ deleteFirst_id_mem ht) hhead
      · exact deleteFirst_tombstones hcons.2 ht m' hm' hid

lemma tombstoned_poll {s : ServerState} {id : String} (h : Tombstoned s id)
    (u : String) (since : Nat) :
    id ∉ ((poll s u since).messages.map (·.id)) := by
  intro hmem
  obtain ⟨m, hm, hid⟩ := List.mem_map.mp hmem
  simp only [poll, List.mem_filter, decide_eq_true_eq] at hm
  exact absurd (h m hm.1 hid).1 (by simp [hm.2.2.2])

lemma hasTombstone_applyOp {s : ServerState} {id : String} {op : ServerOp}
    (h : HasTombstone s id) (hf : FreshOp s op) :
    HasTombstone (applyOp s op) id := by
  obtain ⟨hpres, htomb⟩ := h
  cases op with
  | register u pk =>
    exact ⟨by rw [applyOp, register_messages]; exact hpres,
      fun m hm => htomb m (by rwa [applyOp, register_messages] at hm)⟩
  | lookup u =>
    exact ⟨by rw [applyOp, lookup_messages]; exact hpres,
      fun m hm => htomb m (by rwa [applyOp, lookup_messages] at hm)⟩
  | send r fid =>
    have hfid : fid ∉ s.messages.map (·.id) := hf
    rw [applyOp, send]
    simp only []
    split
    · exact ⟨hpres, htomb⟩
    · split
      · exact ⟨hpres, htomb⟩
      · constructor
        · simpa using Or.inl hpres
        · intro m hm hid
          rcases List.mem_append.mp hm with hm | hm
          · exact htomb m hm hid
          · have : m = mkStored r fid := by simpa using hm
            subst this
            exact absurd (hid ▸ hpres) (by simpa [mkStored] using hfid)
  | deleteMsg did req now =>
    rw [applyOp, deleteMsg]
    split
    · exact ⟨hpres, htomb⟩
    · split
      · exact ⟨hpres, htomb⟩
      · rename_i ms hms
        constructor
        · simpa [deleteFirst_ids hms] using hpres
        · intro m hm hid
          rcases deleteFirst_shape hms m hm with h' | h'
          · exact htomb m h' hid
          · simp [h'.2.1, h'.2.2]

lemma hasTombstone_applyOps {id : String} :
    ∀ (ops : List ServerOp) (s : ServerState), HasTombstone s id →
      FreshSends s ops → HasTombstone (applyOps s ops) id := by
  intro ops
  induction ops with
  | nil => intro s h _; exact h
  | cons op ops ih =>
    intro s h hf
    exact ih (applyOp s op) (hasTombstone_applyOp h hf.1) hf.2

/-- **C4.** Tombstone monotonicity: after a successful `Delete` of `id`
(given the relay's ids are distinct, as `nanoid` assigns them), every
later request sequence with fresh `send` ids keeps every record with
that id tombstoned, and every subsequent `Poll`, for every handle and
`since`, excludes `id` from its `messages`. -/
theorem C4_tombstone_monotonic (s0 s1 : ServerState) (id requester : String)
    (now : Nat) (huniq : (s0.messages.map (·.id)).Nodup)
    (hdel : deleteMsg s0 id requester now = (.ok, s1))
    (ops : List ServerOp) (hf : FreshSends s1 ops) :
    Tombstoned (applyOps s1 ops) id ∧
    ∀ u since, id ∉ ((poll (applyOps s1 ops) u since).messages.map (·.id)) := by
  have hs1 : HasTombstone s1 id := by
    rw [deleteMsg] at hdel
    split at hdel
    · exact absurd (congrArg Prod.fst hdel) (by simp)
    · split at hdel
      · exact absurd (congrArg Prod.fst hdel) (by simp)
      · rename_i ms hms
        cases hdel
        refine ⟨by simpa [deleteFirst_ids hms] using deleteFirst_id_mem hms, ?_⟩
        intro m hm hid
        exact deleteFirst_tombstones huniq hms m hm hid
  have hres := hasTombstone_applyOps ops s1 hs1 hf
  exact ⟨hres.2, fun u since => tombstoned_poll hres.2 u since⟩

/-- Witness for C4: a concrete store, a successful delete, one later
fresh send; the tombstone survives and polling omits the id. -/
theorem C4_tombstone_monotonic_witness :
    (((⟨[], [⟨"m1", "alice", "bob", "ct", "n1", "f1", 5, none, none, none,
        false, none⟩]⟩ : ServerState).messages.map (·.id)).Nodup) ∧
    deleteMsg ⟨[], [⟨"m1", "alice", "bob", "ct", "n1", "f1", 5, none, none,
        none, false, none⟩]⟩ "m1" "Alice " 7 =
      (.ok, ⟨[], [⟨"m1", "alice", "bob", "ct", "n1", "f1", 5, none, none,
        none, true, some 7⟩]⟩) ∧
    "m1" ∉ ((poll (applyOps ⟨[], [⟨"m1", "alice", "bob", "ct", "n1", "f1",
        5, none, none, none, true, some 7⟩]⟩
        [.send ⟨"bob", "alice", "ct2", "n2", "f2", 9, none, none, none⟩ "m2"])
        "bob" 0).messages.map (·.id)) :=
  ⟨by decide, by decide,
    (C4_tombstone_monotonic
      ⟨[], [⟨"m1", "alice", "bob", "ct", "n1", "f1", 5, none, none, none,
        false, none⟩]⟩
      ⟨[], [⟨"m1", "alice", "bob", "ct", "n1", "f1", 5, none, none, none,
        true, some 7⟩]⟩
      "m1" "Alice " 7 (by decide) (by decide)
      [.send ⟨"bob", "alice", "ct2", "n2", "f2", 9, none, none, none⟩ "m2"]
      (by decide)).2 "bob" 0⟩

/-- Counterexample for C7 as stated: a request whose ciphertext is one
space is rejected 400 by the relay (the code trims before the presence
check), although by the claim's reading a non-empty ciphertext is
present, every required field is present, and `from ≠ to`. -/
theorem C7_counterexample :
    (send ⟨[], []⟩ ⟨"alice", "bob", " ", "n1", "f1", 5, none, none, none⟩
      "m1").1 = SendResp.missingFields true true false false true true true ∧
    ¬ sendRejectsSpec ⟨"alice", "bob", " ", "n1", "f1", 5, none, none, none⟩ :=
  ⟨by decide, by decide⟩

/-- **C7 (amended).** `send` returns 400 exactly when a required field is
falsy (absent/empty string, absent/zero timestamp), or neither the
ciphertext nor the attachment id is non-blank after trimming, or
`from`/`to` normalize to empty or to each other; otherwise it appends
exactly the one new record and answers `{ok, id}`; a 400 leaves the
store unchanged. -/
theorem C7_send_validation (s : ServerState) (r : SendReq) (fid : String) :
    ((send s r fid).1 = .ok fid ↔ ¬ sendRejectCode r) ∧
    (sendRejectCode r → (send s r fid).2 = s) ∧
    (¬ sendRejectCode r →
      send s r fid = (.ok fid,
        { s with messages := s.messages ++ [mkStored r fid] })) := by
  have hbr : ((match r.attachmentId with
      | some a => ((⟨trimList a.data⟩ : String) != "")
      | none => false) = false) ↔ attTrimEmpty r.attachmentId = true := by
    cases r.attachmentId <;> simp [attTrimEmpty]
  simp only [send]
  split
  · rename_i h1
    have hcode : sendRejectCode r := by
      rw [sendRejectCode]
      rcases h1 with h | h | ⟨hc, ha⟩ | h | h | h
      · exact Or.inl h
      · exact Or.inr (Or.inl h)
      · exact Or.inr (Or.inr (Or.inl ⟨by simpa using hc, hbr.mp ha⟩))
      · exact Or.inr (Or.inr (Or.inr (Or.inl h)))
      · exact Or.inr (Or.inr (Or.inr (Or.inr (Or.inl h))))
      · exact Or.inr (Or.inr (Or.inr (Or.inr (Or.inr (Or.inl h)))))
    exact ⟨by simp [hcode], fun _ => rfl, fun hno => absurd hcode hno⟩
  · rename_i h1
    split
    · rename_i h2
      have hcode : sendRejectCode r := by
        rw [sendRejectCode]
        rcases h2 with h | h | h
        · exact Or.inr (Or.inr (Or.inr (Or.inr (Or.inr (Or.inr (Or.inl h))))))
        · exact Or.inr (Or.inr (Or.inr (Or.inr (Or.inr (Or.inr (Or.inr
            (Or.inl h)))))))
        · exact Or.inr (Or.inr (Or.inr (Or.inr (Or.inr (Or.inr (Or.inr
            (Or.inr h)))))))
      exact ⟨by simp [hcode], fun _ => rfl, fun hno => absurd hcode hno⟩
    · rename_i h2
      have hno : ¬ sendRejectCode r := by
        intro hc
        rw [sendRejectCode] at hc
        rcases hc with h | h | ⟨hc', ha'⟩ | h | h | h | h | h | h
        · exact h1 (Or.inl h)
        · exact h1 (Or.inr (Or.inl h))
        · exact h1 (Or.inr (Or.inr (Or.inl ⟨by simpa using hc', hbr.mpr ha'⟩)))
        · exact h1 (Or.inr (Or.inr (Or.inr (Or.inl h))))
        · exact h1 (Or.inr (Or.inr (Or.inr (Or.inr (Or.inl h)))))
        · exact h1 (Or.inr (Or.inr (Or.inr (Or.inr (Or.inr h)))))
        · exact h2 (Or.inl h)
        · exact h2 (Or.inr (Or.inl h))
        · exact h2 (Or.inr (Or.inr h))
      exact ⟨by simp [hno], fun hc => absurd hc hno, fun _ => rfl⟩

/-- Witness for C7 at a well-formed request against the empty store. -/
theorem C7_send_validation_witness :
    ¬ sendRejectCode ⟨"Alice", "Bob", "ct", "n1", "f1", 5, none, none, none⟩ ∧
    send ⟨[], []⟩ ⟨"Alice", "Bob", "ct", "n1", "f1", 5, none, none, none⟩
        "m1" =
      (.ok "m1", ⟨[], [mkStored
        ⟨"Alice", "Bob", "ct", "n1", "f1", 5, none, none, none⟩ "m1"]⟩) :=
  ⟨by decide,
    (C7_send_validation ⟨[], []⟩
      ⟨"Alice", "Bob", "ct", "n1", "f1", 5, none, none, none⟩ "m1").2.2
      (by decide)⟩

/-- Counterexample for C9 as stated: the handles `""` and `" "` differ
only in whitespace, yet `Delete` answers 400 (`missing`) for the former
and 404 (`notFound`) for the latter. -/
theorem C9_counterexample :
    normalize " " = normalize "" ∧
    (deleteMsg ⟨[], [⟨"m1", "alice", "bob", "ct", "n1", "f1", 5, none, none,
      none, false, none⟩]⟩ "m1" "" 7).1 = DeleteResp.missing ∧
    (deleteMsg ⟨[], [⟨"m1", "alice", "bob", "ct", "n1", "f1", 5, none, none,
      none, false, none⟩]⟩ "m1" " " 7).1 = DeleteResp.notFound :=
  ⟨by decide, by decide, by decide⟩

/-- **C9 (amended).** For handles that are non-empty after trimming,
every relay operation treats two handles with the same normalization
identically (status, body, and state): case and surrounding whitespace
never matter.  (Handles that trim to the empty string are excluded: the
empty string is falsy in JavaScript and takes the early 400 path, while
its whitespace variants reach normalization.) -/
theorem C9_handle_case_insensitive (s : ServerState) (h1 h2 : String)
    (hn : normalize h1 = normalize h2) (hne : normalize h1 ≠ "")
    (pk : String) (r : SendReq) (fid id : String) (since now : Nat) :
    register s h1 pk = register s h2 pk ∧
    lookup s h1 = lookup s h2 ∧
    send s { r with from_ := h1 } fid = send s { r with from_ := h2 } fid ∧
    send s { r with to_ := h1 } fid = send s { r with to_ := h2 } fid ∧
    poll s h1 since = poll s h2 since ∧
    deleteMsg s id h1 now = deleteMsg s id h2 now := by
  have h1e : h1 ≠ "" := ne_empty_of_normalize_ne hne
  have h2e : h2 ≠ "" := ne_empty_of_normalize_ne (hn ▸ hne)
  have hb1 : (h1 != "") = true := bne_iff_ne.mpr h1e
  have hb2 : (h2 != "") = true := bne_iff_ne.mpr h2e
  refine ⟨?_, ?_, ?_, ?_, ?_, ?_⟩
  · by_cases hpk : pk = ""
    · simp [register, hpk]
    · have e1 : register s h1 pk = (.ok, { s with users :=
          (setKey s.users (normalize h1) ⟨normalize h1, pk⟩) }) := by
        rw [register, if_neg (by tauto)]
        simp only []
        rw [if_neg hne]
      have e2 : register s h2 pk = (.ok, { s with users :=
          (setKey s.users (normalize h2) ⟨normalize h2, pk⟩) }) := by
        rw [register, if_neg (by tauto)]
        simp only []
        rw [if_neg (hn ▸ hne)]
      rw [e1, e2, hn]
  · simp only [lookup, hn]
  · simp only [send]
    dsimp only
    apply if_congr
    · simp [h1e, h2e]
    · rw [hb1, hb2]
    · simp only [mkStored, hn]
  · simp only [send]
    dsimp only
    apply if_congr
    · simp [h1e, h2e]
    · rw [hb1, hb2]
    · simp only [mkStored, hn]
  · simp only [poll, hn]
  · by_cases hid : id = ""
    · simp [deleteMsg, hid]
    · rw [deleteMsg, deleteMsg, if_neg (by tauto), if_neg (by tauto), hn]

/-- Witness for C9: `"Alice"` and `" alice"` are treated identically. -/
theorem C9_handle_case_insensitive_witness :
    normalize "Alice" = normalize " alice" ∧ normalize "Alice" ≠ "" ∧
    deleteMsg ⟨[], [⟨"m1", "alice", "bob", "ct", "n1", "f1", 5, none, none,
        none, false, none⟩]⟩ "m1" "Alice" 3 =
      deleteMsg ⟨[], [⟨"m1", "alice", "bob", "ct", "n1", "f1", 5, none, none,
        none, false, none⟩]⟩ "m1" " alice" 3 :=
  ⟨by decide, by decide,
    (C9_handle_case_insensitive
      ⟨[], [⟨"m1", "alice", "bob", "ct", "n1", "f1", 5, none, none, none,
        false, none⟩]⟩
      "Alice" " alice" (by decide) (by decide) "pk"
      ⟨"x", "y", "ct", "n", "f", 1, none, none, none⟩ "m9" "m1" 0
      3).2.2.2.2.2⟩

lemma find?_map_upd {k : String} {v : PublicUser} :
    ∀ l : List (String × PublicUser), l.any (fun p => p.1 = k) = true →
      (l.map (fun p => if p.1 = k then (k, v) else p)).find?
        (fun p => p.1 = k) = some (k, v)
  | [], h => by simp at h
  | p :: l, h => by
    by_cases hp : p.1 = k
    · rw [List.map_cons, if_pos hp, List.find?_cons_of_pos _ (by simp)]
    · have hd : (decide (p.1 = k)) = false := decide_eq_false hp
      rw [List.any_cons, hd, Bool.false_or] at h
      rw [List.map_cons, if_neg hp,
        List.find?_cons_of_neg _ (by simpa using hp)]
      exact find?_map_upd l h

lemma find?_append_single {k : String} {v : PublicUser} :
    ∀ l : List (String × PublicUser), l.any (fun p => p.1 = k) = false →
      (l ++ [(k, v)]).find? (fun p => p.1 = k) = some (k, v)
  | [], _ => by simp
  | p :: l, h => by
    have hp : ¬ p.1 = k := by
      intro he
      simp [he] at h
    have hd : (decide (p.1 = k)) = false := decide_eq_false hp
    rw [List.any_cons, hd, Bool.false_or] at h
    rw [List.cons_append, List.find?_cons_of_neg _ (by simpa using hp)]
    exact find?_append_single l h

lemma getKey_setKey (l : List (String × PublicUser)) (k : String)
    (v : PublicUser) : getKey (setKey l k v) k = some v := by
  rw [getKey, setKey]
  split
  · rw [find?_map_upd _ ‹_›]
    rfl
  · rename_i hany
    have hf : l.any (fun p => p.1 = k) = false := by
      cases hb : l.any (fun p => p.1 = k) with
      | false => rfl
      | true => exact absurd hb hany
    rw [find?_append_single _ hf]
    rfl

/-- **C10.** Re-registering a handle (or a case/whitespace variant of it)
with a different key succeeds with `{ok:true}`, silently overwrites the
stored entry — a later lookup returns the new key — and leaves stored
messages untouched; the relay imposes no ownership check. -/
theorem C10_register_replaces (s : ServerState) (h hvar pk1 pk2 : String)
    (hn : normalize hvar = normalize h) (hne : normalize h ≠ "")
    (_hprev : getKey s.users (normalize h) = some ⟨normalize h, pk1⟩)
    (hpk2 : pk2 ≠ "") :
    (register s hvar pk2).1 = .ok ∧
    (lookup (register s hvar pk2).2 h).1 = .found (normalize h) pk2 ∧
    ((register s hvar pk2).2).messages = s.messages := by
  have hv : hvar ≠ "" := ne_empty_of_normalize_ne (by rw [hn]; exact hne)
  have hreg : register s hvar pk2 = (.ok,
      { s with users :=
          (setKey s.users (normalize hvar) ⟨normalize hvar, pk2⟩) }) := by
    rw [register, if_neg (by tauto)]
    simp only []
    rw [if_neg (by rw [hn]; exact hne)]
  refine ⟨by rw [hreg], ?_, by rw [hreg]⟩
  rw [hreg, lookup]
  simp only [← hn, getKey_setKey]

/-- Witness for C10: `bob` re-registered via `" BOB "` with a new key. -/
theorem C10_register_replaces_witness :
    normalize " BOB " = normalize "Bob" ∧
    getKey ([("bob", ⟨"bob", "PK1"⟩)] :
      List (String × PublicUser)) (normalize "Bob") = some ⟨"bob", "PK1"⟩ ∧
    (lookup (register ⟨[("bob", ⟨"bob", "PK1"⟩)], []⟩ " BOB " "PK2").2
      "Bob").1 = .found (normalize "Bob") "PK2" :=
  ⟨by decide, by decide,
    (C10_register_replaces ⟨[("bob", ⟨"bob", "PK1"⟩)], []⟩ "Bob" " BOB "
      "PK1" "PK2" (by decide) (by decide) (by decide) (by decide)).2.1⟩

end Relay

/-! ## Theorems: ChatScreen merge -/

namespace Chat

lemma bool_eq_false {b : Bool} (h : ¬(b = true)) : b = false := by
  cases b
  · rfl
  · exact absurd rfl h

lemma mkItem_id (dec : String → String → Option Bytes) (utf8 : Bytes → String)
    (myU peerU : String) (m : Relay.StoredMessage) :
    (mkItem dec utf8 myU peerU m).id = m.id := by
  rw [mkItem]
  split <;> rfl

lemma step1_none (dec : String → String → Option Bytes) (utf8 : Bytes → String)
    (myU peerU peerFp : String) (m : Relay.StoredMessage) (E : List String)
    (N : List ChatItem) :
    step1 dec utf8 myU peerU peerFp none m E N =
      if E.contains m.id then .inr (E, N)
      else if admits dec myU peerU peerFp m then
        .inr (m.id :: E, N ++ [mkItem dec utf8 myU peerU m])
      else .inr (E, N) := by
  by_cases hdup : E.contains m.id
  · have hdup' : m.id ∈ E := by simpa using hdup
    simp [step1, hdup, hdup']
  · have hdup' : m.id ∉ E := by simpa using hdup
    by_cases hme : normalize m.from_ = myU ∧ normalize m.to_ = peerU
    · simp [step1, admits, mkItem, hdup, hdup', hme, tempTruthy]
    · by_cases hpe : normalize m.from_ = peerU ∧ normalize m.to_ = myU
      · have hne : ¬(peerU = myU ∧ myU = peerU) := by
          rintro ⟨e1, e2⟩
          exact hme ⟨hpe.1.trans e1, hpe.2.trans e2⟩
        by_cases hfp : m.fingerprint ≠ "" ∧ peerFp ≠ "" ∧ m.fingerprint ≠ peerFp
        · simp [step1, admits, hdup, hdup', hme, hpe, hfp, hne]
        · by_cases hnd : needsDec m
          · cases hdec : dec m.ciphertext m.nonce with
            | none =>
              simp [step1, admits, hdup, hdup', hme, hpe, hfp, hnd, hdec, hne]
            | some bs =>
              simp [step1, admits, mkItem, hdup, hdup', hme, hpe, hfp, hnd,
                hdec, hne]
          · simp [step1, admits, mkItem, hdup, hdup', hme, hpe, hfp, hnd, hne]
      · simp [step1, admits, hdup, hdup', hme, hpe]

lemma mergeLoop_none_eq (dec : String → String → Option Bytes)
    (utf8 : Bytes → String) (myU peerU peerFp : String) :
    ∀ (msgs : List Relay.StoredMessage) (E : List String) (N : List ChatItem),
      mergeLoop dec utf8 myU peerU peerFp none msgs E N =
        .inr (N ++ admitList dec utf8 myU peerU peerFp msgs E)
  | [], E, N => by simp [mergeLoop, admitList]
  | m :: ms, E, N => by
    by_cases hdup : E.contains m.id
    · rw [mergeLoop, step1_none, if_pos hdup, admitList, if_pos hdup]
      exact mergeLoop_none_eq dec utf8 myU peerU peerFp ms E N
    · by_cases hadm : admits dec myU peerU peerFp m
      · rw [mergeLoop, step1_none, if_neg hdup, if_pos hadm, admitList,
          if_neg hdup, if_pos hadm]
        refine (mergeLoop_none_eq dec utf8 myU peerU peerFp ms (m.id :: E)
          (N ++ [mkItem dec utf8 myU peerU m])).trans ?_
        rw [List.append_assoc]
        rfl
      · rw [mergeLoop, step1_none, if_neg hdup, if_neg hadm, admitList,
          if_neg hdup, if_neg hadm]
        exact mergeLoop_none_eq dec utf8 myU peerU peerFp ms E N

lemma admitList_mem (dec : String → String → Option Bytes)
    (utf8 : Bytes → String) (myU peerU peerFp : String) :
    ∀ (msgs : List Relay.StoredMessage) (E : List String),
      ∀ i ∈ admitList dec utf8 myU peerU peerFp msgs E,
        ∃ m ∈ msgs, admits dec myU peerU peerFp m = true ∧ i.id = m.id ∧
          m.id ∉ E
  | [], E => by simp [admitList]
  | m :: ms, E => by
    intro i hi
    rw [admitList] at hi
    by_cases hdup : E.contains m.id
    · rw [if_pos hdup] at hi
      obtain ⟨m', hm', h⟩ := admitList_mem dec utf8 myU peerU peerFp ms E i hi
      exact ⟨m', List.mem_cons_of_mem _ hm', h⟩
    · rw [if_neg hdup] at hi
      have hdup' : m.id ∉ E := by simpa using hdup
      by_cases hadm : admits dec myU peerU peerFp m
      · rw [if_pos hadm] at hi
        rcases List.mem_cons.mp hi with hi | hi
        · exact ⟨m, List.mem_cons_self _ _, hadm, by rw [hi, mkItem_id], hdup'⟩
        · obtain ⟨m', hm', ha', hid', hc'⟩ :=
            admitList_mem dec utf8 myU peerU peerFp ms (m.id :: E) i hi
          exact ⟨m', List.mem_cons_of_mem _ hm', ha', hid',
            fun hmem => hc' (List.mem_cons_of_mem _ hmem)⟩
      · rw [if_neg hadm] at hi
        obtain ⟨m', hm', h⟩ := admitList_mem dec utf8 myU peerU peerFp ms E i hi
        exact ⟨m', List.mem_cons_of_mem _ hm', h⟩

lemma admitList_of_covered (dec : String → String → Option Bytes)
    (utf8 : Bytes → String) (myU peerU peerFp : String) :
    ∀ (msgs : List Relay.StoredMessage) (E : List String),
      (∀ m ∈ msgs, admits dec myU peerU peerFp m = true → m.id ∈ E) →
      admitList dec utf8 myU peerU peerFp msgs E = []
  | [], _, _ => rfl
  | m :: ms, E, h => by
    rw [admitList]
    by_cases hdup : E.contains m.id
    · rw [if_pos hdup]
      exact admitList_of_covered dec utf8 myU peerU peerFp ms E
        (fun m' hm' ha' => h m' (List.mem_cons_of_mem _ hm') ha')
    · by_cases hadm : admits dec myU peerU peerFp m
      · exact absurd (h m (List.mem_cons_self _ _) hadm)
          (by simpa using hdup)
      · rw [if_neg hdup, if_neg hadm]
        exact admitList_of_covered dec utf8 myU peerU peerFp ms E
          (fun m' hm' ha' => h m' (List.mem_cons_of_mem _ hm') ha')

lemma admitList_ids (dec : String → String → Option Bytes)
    (utf8 : Bytes → String) (myU peerU peerFp : String) :
    ∀ (msgs : List Relay.StoredMessage) (E : List String),
      ∀ m ∈ msgs, admits dec myU peerU peerFp m = true →
        m.id ∈ E ∨ m.id ∈ (admitList dec utf8 myU peerU peerFp msgs E).map (·.id)
  | [], E => by simp
  | m :: ms, E => by
    intro m' hm' ha'
    rw [admitList]
    by_cases hdup : E.contains m.id
    · rw [if_pos hdup]
      rcases List.mem_cons.mp hm' with rfl | hm'
      · exact Or.inl (by simpa using hdup)
      · exact admitList_ids dec utf8 myU peerU peerFp ms E m' hm' ha'
    · by_cases hadm : admits dec myU peerU peerFp m
      · rw [if_neg hdup, if_pos hadm]
        rcases List.mem_cons.mp hm' with rfl | hm'
        · exact Or.inr (by simp [mkItem_id])
        · rcases admitList_ids dec utf8 myU peerU peerFp ms (m.id :: E)
            m' hm' ha' with hc | hmem
          · rcases List.mem_cons.mp hc with he | he
            · exact Or.inr (by simp [he, mkItem_id])
            · exact Or.inl he
          · exact Or.inr (by simp only [List.map_cons, List.mem_cons]; exact Or.inr hmem)
      · rw [if_neg hdup, if_neg hadm]
        rcases List.mem_cons.mp hm' with rfl | hm'
        · exact absurd ha' (by simpa using hadm)
        · exact admitList_ids dec utf8 myU peerU peerFp ms E m' hm' ha'

lemma mergeStep_none_eq (dec : String → String → Option Bytes)
    (utf8 : Bytes → String) (user peer : String) (peerPub : Option String)
    (prev : List ChatItem) (r : PollResp) :
    mergeStep dec utf8 user peer peerPub none prev r =
      match r.deletions with
      | some ds => jsSort ((prev ++ admitList dec utf8 (normalize user)
          (normalize peer) (peerFpOf peerPub) r.messages
          (prev.map (·.id))).filter (fun i => ¬ delHit ds i))
      | none => jsSort (prev ++ admitList dec utf8 (normalize user)
          (normalize peer) (peerFpOf peerPub) r.messages (prev.map (·.id))) := by
  simp only [mergeStep]
  rw [mergeLoop_none_eq]

lemma jsSort_perm (l : List ChatItem) : List.Perm (jsSort l) l :=
  List.perm_insertionSort _ l

lemma sorted_jsSort (l : List ChatItem) :
    (jsSort l).Sorted (fun a b => a.timestamp ≤ b.timestamp) :=
  List.sorted_insertionSort _ l

lemma jsSort_jsSort (l : List ChatItem) : jsSort (jsSort l) = jsSort l :=
  List.Sorted.insertionSort_eq (sorted_jsSort l)

lemma admitted_id_in_result (dec : String → String → Option Bytes)
    (utf8 : Bytes → String) (myU peerU fp : String)
    (msgs : List Relay.StoredMessage) (prev : List ChatItem) :
    ∀ m ∈ msgs, admits dec myU peerU fp m = true →
      m.id ∈ (prev ++ admitList dec utf8 myU peerU fp msgs
        (prev.map (·.id))).map (·.id) := by
  intro m hm ha
  rcases admitList_ids dec utf8 myU peerU fp msgs (prev.map (·.id)) m hm ha
    with h | h
  · simp only [List.map_append, List.mem_append]
    exact Or.inl h
  · simp only [List.map_append, List.mem_append]
    exact Or.inr h

lemma merge_second_pass_none (dec : String → String → Option Bytes)
    (utf8 : Bytes → String) (myU peerU fp : String)
    (msgs : List Relay.StoredMessage) (L1 : List ChatItem)
    (hcov : ∀ m ∈ msgs, admits dec myU peerU fp m = true →
      m.id ∈ L1.map (·.id)) :
    jsSort (jsSort L1 ++
      admitList dec utf8 myU peerU fp msgs ((jsSort L1).map (·.id))) =
    jsSort L1 := by
  have hcov' : ∀ m ∈ msgs, admits dec myU peerU fp m = true →
      m.id ∈ (jsSort L1).map (·.id) := by
    intro m hm ha
    exact ((jsSort_perm L1).map (·.id)).mem_iff.mpr (hcov m hm ha)
  rw [admitList_of_covered dec utf8 _ _ _ msgs _ hcov', List.append_nil,
    jsSort_jsSort]

lemma merge_second_pass_some (dec : String → String → Option Bytes)
    (utf8 : Bytes → String) (myU peerU fp : String)
    (msgs : List Relay.StoredMessage) (ds : List Relay.PollDeletion)
    (L1 : List ChatItem)
    (hcov : ∀ m ∈ msgs, admits dec myU peerU fp m = true →
      m.id ∈ L1.map (·.id)) :
    jsSort ((jsSort (L1.filter (fun i => ¬ delHit ds i)) ++
      admitList dec utf8 myU peerU fp msgs
        ((jsSort (L1.filter (fun i => ¬ delHit ds i))).map (·.id))).filter
      (fun i => ¬ delHit ds i)) =
    jsSort (L1.filter (fun i => ¬ delHit ds i)) := by
  set F := L1.filter (fun i => ¬ delHit ds i) with hF
  set res1 := jsSort F with hres
  set A2 := admitList dec utf8 myU peerU fp msgs (res1.map (·.id)) with hA2def
  have hsuf : ∀ i ∈ A2, delHit ds i := by
    intro i hi
    obtain ⟨m, hm, ha, hid, hnotin⟩ :=
      admitList_mem dec utf8 _ _ _ msgs _ i hi
    have hin1 : m.id ∈ L1.map (·.id) := hcov m hm ha
    have hnotinF : m.id ∉ F.map (·.id) :=
      fun hmem => hnotin (((jsSort_perm F).map (·.id)).mem_iff.mpr hmem)
    obtain ⟨j, hj, hjid⟩ := List.mem_map.mp hin1
    by_cases hdel : delHit ds j
    · obtain ⟨d, hd, hdid⟩ := hdel
      exact ⟨d, hd, by rw [hdid, hjid, hid]⟩
    · have hjf : j ∈ F := by
        rw [hF]
        exact List.mem_filter.mpr ⟨hj, by simpa using hdel⟩
      exact absurd (List.mem_map.mpr ⟨j, hjf, hjid⟩) hnotinF
  rw [List.filter_append]
  have hA2 : A2.filter (fun i => ¬ delHit ds i) = [] := by
    rw [List.filter_eq_nil_iff]
    intro i hi
    simpa using hsuf i hi
  have hres1 : res1.filter (fun i => ¬ delHit ds i) = res1 := by
    rw [List.filter_eq_self]
    intro i hi
    have hiF := (jsSort_perm F).mem_iff.mp hi
    rw [hF] at hiF
    exact (List.mem_filter.mp hiF).2
  rw [hA2, hres1, List.append_nil, hres, jsSort_jsSort]

/-- **C1.** Merge idempotence: with no pending optimistic send, applying
the polling loop's `setItems` merge (admission pass, deletion pass and
sort) twice with the same poll response produces exactly the timeline of
applying it once, for every previous timeline state and response. -/
theorem C1_merge_idempotent (dec : String → String → Option Bytes)
    (utf8 : Bytes → String) (user peer : String) (peerPub : Option String)
    (prev : List ChatItem) (r : PollResp) :
    mergeStep dec utf8 user peer peerPub none
      (mergeStep dec utf8 user peer peerPub none prev r) r =
    mergeStep dec utf8 user peer peerPub none prev r := by
  have hcov := admitted_id_in_result dec utf8 (normalize user)
    (normalize peer) (peerFpOf peerPub) r.messages prev
  cases hds : r.deletions with
  | none =>
    have h1 : mergeStep dec utf8 user peer peerPub none prev r =
        jsSort (prev ++ admitList dec utf8 (normalize user) (normalize peer)
          (peerFpOf peerPub) r.messages (prev.map (·.id))) := by
      rw [mergeStep_none_eq, hds]
    rw [h1, mergeStep_none_eq, hds]
    exact merge_second_pass_none dec utf8 _ _ _ r.messages _ hcov
  | some ds =>
    have h1 : mergeStep dec utf8 user peer peerPub none prev r =
        jsSort ((prev ++ admitList dec utf8 (normalize user) (normalize peer)
          (peerFpOf peerPub) r.messages (prev.map (·.id))).filter
          (fun i => ¬ delHit ds i)) := by
      rw [mergeStep_none_eq, hds]
    rw [h1, mergeStep_none_eq, hds]
    exact merge_second_pass_some dec utf8 _ _ _ r.messages ds _ hcov

lemma step1_not_pairOk (dec : String → String → Option Bytes)
    (utf8 : Bytes → String) (myU peerU peerFp : String)
    (tempId : Option String) (m : Relay.StoredMessage) (E : List String)
    (N : List ChatItem) (h : pairOk myU peerU m = false) :
    step1 dec utf8 myU peerU peerFp tempId m E N = .inr (E, N) := by
  rw [pairOk] at h
  have h' := of_decide_eq_false h
  have hA : ¬(normalize m.from_ = myU ∧ normalize m.to_ = peerU) :=
    fun a => h' (Or.inl a)
  have hB : ¬(normalize m.from_ = peerU ∧ normalize m.to_ = myU) :=
    fun b => h' (Or.inr b)
  by_cases hdup : m.id ∈ E
  · simp [step1, hdup]
  · simp [step1, hdup, hA, hB]

lemma step1_fpBlocked (dec : String → String → Option Bytes)
    (utf8 : Bytes → String) (myU peerU peerFp : String)
    (tempId : Option String) (m : Relay.StoredMessage) (E : List String)
    (N : List ChatItem) (h : fpBlocked myU peerU peerFp m = true) :
    step1 dec utf8 myU peerU peerFp tempId m E N = .inr (E, N) := by
  rw [fpBlocked] at h
  obtain ⟨hnm, hpe, hf1, hf2, hf3⟩ := of_decide_eq_true h
  have hne : ¬(peerU = myU ∧ myU = peerU) := by
    rintro ⟨e1, e2⟩
    exact hnm ⟨hpe.1.trans e1, hpe.2.trans e2⟩
  by_cases hdup : m.id ∈ E
  · simp [step1, hdup]
  · simp [step1, hdup, hnm, hpe, hf1, hf2, hf3, hne]

lemma mergeLoop_filter_pairOk (dec : String → String → Option Bytes)
    (utf8 : Bytes → String) (myU peerU peerFp : String)
    (tempId : Option String) :
    ∀ (msgs : List Relay.StoredMessage) (E : List String) (N : List ChatItem),
      mergeLoop dec utf8 myU peerU peerFp tempId
        (msgs.filter (pairOk myU peerU)) E N =
      mergeLoop dec utf8 myU peerU peerFp tempId msgs E N
  | [], _, _ => rfl
  | m :: ms, E, N => by
    by_cases hp : pairOk myU peerU m = true
    · rw [List.filter_cons_of_pos hp, mergeLoop, mergeLoop]
      rcases hstep : step1 dec utf8 myU peerU peerFp tempId m E N with
        early | ⟨e, n⟩
      · rfl
      · exact mergeLoop_filter_pairOk dec utf8 myU peerU peerFp tempId ms e n
    · have hp' : pairOk myU peerU m = false := bool_eq_false hp
      rw [List.filter_cons_of_neg (by simp [hp'])]
      conv_rhs => rw [mergeLoop,
        step1_not_pairOk dec utf8 myU peerU peerFp tempId m E N hp']
      exact mergeLoop_filter_pairOk dec utf8 myU peerU peerFp tempId ms E N

lemma mergeLoop_filter_fpBlocked (dec : String → String → Option Bytes)
    (utf8 : Bytes → String) (myU peerU peerFp : String)
    (tempId : Option String) :
    ∀ (msgs : List Relay.StoredMessage) (E : List String) (N : List ChatItem),
      mergeLoop dec utf8 myU peerU peerFp tempId
        (msgs.filter (fun m => fpBlocked myU peerU peerFp m = false)) E N =
      mergeLoop dec utf8 myU peerU peerFp tempId msgs E N
  | [], _, _ => rfl
  | m :: ms, E, N => by
    by_cases hb : fpBlocked myU peerU peerFp m = true
    · rw [List.filter_cons_of_neg (by simp [hb])]
      conv_rhs => rw [mergeLoop,
        step1_fpBlocked dec utf8 myU peerU peerFp tempId m E N hb]
      exact mergeLoop_filter_fpBlocked dec utf8 myU peerU peerFp tempId ms E N
    · rw [List.filter_cons_of_pos (by simp [bool_eq_false hb]), mergeLoop,
        mergeLoop]
      rcases hstep : step1 dec utf8 myU peerU peerFp tempId m E N with
        early | ⟨e, n⟩
      · rfl
      · exact mergeLoop_filter_fpBlocked dec utf8 myU peerU peerFp tempId ms e n

/-- **C3.** Directed-pair admission: records whose normalized `(from, to)`
pair is neither `(me, peer)` nor `(peer, me)` are ignored entirely —
removing them from the poll response does not change the merge result in
any loop state, so they never appear in the conversation's timeline. -/
theorem C3_directed_pair (dec : String → String → Option Bytes)
    (utf8 : Bytes → String) (user peer : String) (peerPub : Option String)
    (tempId : Option String) (prev : List ChatItem)
    (msgs : List Relay.StoredMessage)
    (dels : Option (List Relay.PollDeletion)) :
    mergeStep dec utf8 user peer peerPub tempId prev
      ⟨msgs.filter (pairOk (normalize user) (normalize peer)), dels⟩ =
    mergeStep dec utf8 user peer peerPub tempId prev ⟨msgs, dels⟩ := by
  simp only [mergeStep]
  rw [mergeLoop_filter_pairOk]

/-- **C2 (amended).** Fingerprint isolation for non-empty fingerprints:
a record addressed `peer → me` whose `fingerprint` and the resolved peer
fingerprint are both non-empty and differ is silently dropped — removing
all such records from the poll response leaves the merge result
unchanged in every loop state.  (A record with a missing/empty
fingerprint, or with no resolved peer key, bypasses the check.) -/
theorem C2_fingerprint_isolation (dec : String → String → Option Bytes)
    (utf8 : Bytes → String) (user peer : String) (peerPub : Option String)
    (tempId : Option String) (prev : List ChatItem)
    (msgs : List Relay.StoredMessage)
    (dels : Option (List Relay.PollDeletion)) :
    mergeStep dec utf8 user peer peerPub tempId prev
      ⟨msgs.filter (fun m => fpBlocked (normalize user) (normalize peer)
        (peerFpOf peerPub) m = false), dels⟩ =
    mergeStep dec utf8 user peer peerPub tempId prev ⟨msgs, dels⟩ := by
  simp only [mergeStep]
  rw [mergeLoop_filter_fpBlocked]

/-- Counterexample for C2 as stated: a `peer → me` record whose
`fingerprint` is empty — and therefore differs from the resolved peer's
fingerprint — is **not** dropped: it lands in the timeline because the
check only fires when both fingerprints are non-empty. -/
theorem C2_counterexample :
    ("" : String) ≠ fingerprintPublicKey (toBase64 [65, 66, 67, 68, 69, 70,
      71, 72]) ∧
    (mergeStep decNone utf8Empty "alice" "bob"
      (some (toBase64 [65, 66, 67, 68, 69, 70, 71, 72])) none []
      ⟨[⟨"x1", "bob", "alice", "", "n1", "", 5, none, none, none, false,
        none⟩], none⟩).map (·.id) = ["x1"] :=
  ⟨by decide, by decide⟩

lemma step1_inl_sorted (dec : String → String → Option Bytes)
    (utf8 : Bytes → String) (myU peerU peerFp : String)
    (tempId : Option String) (m : Relay.StoredMessage) (E : List String)
    (N : List ChatItem) (x : List ChatItem)
    (h : step1 dec utf8 myU peerU peerFp tempId m E N = .inl x) :
    x.Sorted (fun a b => a.timestamp ≤ b.timestamp) := by
  rw [step1] at h
  split at h
  · simp at h
  · dsimp only at h
    split at h
    · simp at h
    · split at h
      · split at h
        · injection h with h'
          subst h'
          exact sorted_jsSort _
        · simp at h
      · split at h
        · simp at h
        · split at h
          · split at h <;> simp at h
          · simp at h

lemma mergeLoop_inl_sorted (dec : String → String → Option Bytes)
    (utf8 : Bytes → String) (myU peerU peerFp : String)
    (tempId : Option String) :
    ∀ (msgs : List Relay.StoredMessage) (E : List String)
      (N : List ChatItem) (x : List ChatItem),
      mergeLoop dec utf8 myU peerU peerFp tempId msgs E N = .inl x →
      x.Sorted (fun a b => a.timestamp ≤ b.timestamp)
  | [], E, N, x, h => by simp [mergeLoop] at h
  | m :: ms, E, N, x, h => by
    rw [mergeLoop] at h
    rcases hstep : step1 dec utf8 myU peerU peerFp tempId m E N with
      early | ⟨e, n⟩
    · rw [hstep] at h
      injection h with h'
      subst h'
      exact step1_inl_sorted dec utf8 myU peerU peerFp tempId m E N _ hstep
    · rw [hstep] at h
      exact mergeLoop_inl_sorted dec utf8 myU peerU peerFp tempId ms e n x h

/-- **C6 (amended).** After every merge the timeline is sorted by
`timestamp` ascending (non-strict): every exit path of the updater ends
in the stable `.sort((a, b) => a.timestamp - b.timestamp)`.  Ties keep
insertion order; the message `id` is not part of the ordering key. -/
theorem C6_timeline_sorted (dec : String → String → Option Bytes)
    (utf8 : Bytes → String) (user peer : String) (peerPub : Option String)
    (tempId : Option String) (prev : List ChatItem) (r : PollResp) :
    (mergeStep dec utf8 user peer peerPub tempId prev r).Sorted
      (fun a b => a.timestamp ≤ b.timestamp) := by
  simp only [mergeStep]
  rcases hmg : mergeLoop dec utf8 (normalize user) (normalize peer)
    (peerFpOf peerPub) tempId r.messages (prev.map (·.id)) prev with x | next
  · rw [hmg]
    exact mergeLoop_inl_sorted dec utf8 _ _ _ tempId r.messages _ prev x hmg
  · rw [hmg]
    cases r.deletions <;> exact sorted_jsSort _

/-- Counterexample for C6 as stated: two same-timestamp records arriving
as ids `"b"` then `"a"` stay in arrival order, so the displayed order
violates the claimed `(createdAt, id)` ascending key. -/
theorem C6_counterexample :
    ¬ (mergeStep decNone utf8Empty "alice" "bob" none none []
      ⟨[⟨"b", "bob", "alice", "", "nb", "", 5, none, none, none, false,
          none⟩,
        ⟨"a", "bob", "alice", "", "na", "", 5, none, none, none, false,
          none⟩], none⟩).Pairwise
      (fun x y => x.timestamp < y.timestamp ∨
        (x.timestamp = y.timestamp ∧ strLtB x.id.data y.id.data = true)) := by
  decide

end Chat

/-! ## Theorems: Settings sealed export/import -/

namespace Settings

lemma deriveKey_sha0 : deriveKey sha0 = List.replicate 64 48 := by
  have h1 : (10000 : Nat) = 9999 + 1 := rfl
  rw [deriveKey, h1, Function.iterate_succ_apply]
  exact Function.iterate_fixed rfl 9999

/-- Counterexample for C8 as stated: flipping one byte of the sealed
blob (hex positions 28–29, inside the sealed `publicKey`) makes
`importSealed` silently succeed and store a **different** identity —
no `CryptoError`, no authentication: the scheme has no tag, and the
XOR mask cancels, so the corruption maps directly onto the recovered
payload. -/
theorem C8_counterexample :
    importSealed sha0 (((exportSealed sha0 kp0).set 28 52).set 29 50) =
      some ⟨strBytes "BAAA", strBytes "BBBB"⟩ ∧
    (⟨strBytes "BAAA", strBytes "BBBB"⟩ : KeyPairB) ≠ kp0 := by
  constructor
  · rw [importSealed, exportSealed]
    simp only [deriveKey_sha0]
    decide
  · decide

lemma hexVal_hexDigit {d : Nat} (h : d < 16) : hexVal (hexDigit d) = some d := by
  have hall : ∀ e ∈ List.range 16, hexVal (hexDigit e) = some e := by decide
  exact hall d (List.mem_range.mpr h)

lemma parse_byteToHexJS {b : Nat} (h : b < 256) :
    parseHexPrefix2 (byteToHexJS b) = b := by
  rw [byteToHexJS, parseHexPrefix2, hexVal_hexDigit (by omega),
    hexVal_hexDigit (by omega)]
  dsimp only
  omega

lemma hexVal_le {c v : Nat} (hv : hexVal c = some v) : v ≤ 15 := by
  rw [hexVal] at hv
  split_ifs at hv with h1 h2 h3
  · injection hv with hv'
    omega
  · injection hv with hv'
    omega
  · injection hv with hv'
    omega

lemma parseHexPrefix2_lt (c d : Nat) : parseHexPrefix2 [c, d] < 256 := by
  rw [parseHexPrefix2]
  rcases h1 : hexVal c with - | v1
  · simp only [h1]
    omega
  · simp only [h1]
    rcases h2 : hexVal d with - | v2
    · have := hexVal_le h1
      simp only [h2]
      omega
    · have e1 := hexVal_le h1
      have e2 := hexVal_le h2
      simp only [h2]
      omega

lemma bytesToHex_cons (b : Nat) (bs : List Nat) :
    bytesToHex (b :: bs) =
      hexDigit (b % 256 / 16) :: hexDigit (b % 256 % 16) :: bytesToHex bs := by
  simp [bytesToHex, byteToHexJS]

lemma bytesToHex_length (bs : List Nat) :
    (bytesToHex bs).length = 2 * bs.length := by
  induction bs with
  | nil => rfl
  | cons b bs ih =>
    rw [bytesToHex_cons]
    simp [ih]
    omega

lemma xorHexGo_cons2 (c1 c2 d1 d2 : Nat) (a b : JSStr) :
    xorHexGo (c1 :: c2 :: a) (d1 :: d2 :: b) =
      byteToHexJS (parseHexPrefix2 [c1, c2] ^^^ parseHexPrefix2 [d1, d2]) ++
        xorHexGo a b := rfl

lemma xorHex_length : ∀ (bs : List Nat) (mask : JSStr),
    mask.length = 2 * bs.length →
    (xorHex (bytesToHex bs) mask).length = 2 * bs.length
  | [], mask, hlen => by simp [bytesToHex, xorHex, xorHexGo]
  | b :: bs, mask, hlen => by
    rcases mask with - | ⟨m1, mask⟩
    · simp at hlen
    rcases mask with - | ⟨m2, mask⟩
    · simp at hlen
      omega
    rw [bytesToHex_cons, xorHex, xorHexGo_cons2]
    have hlen' : mask.length = 2 * bs.length := by
      simp at hlen
      omega
    have ih := xorHex_length bs mask hlen'
    rw [xorHex] at ih
    simp [byteToHexJS, ih]
    omega

lemma xorHex_mask_cancel : ∀ (bs : List Nat) (mask : JSStr),
    (∀ b ∈ bs, b < 256) → mask.length = 2 * bs.length →
    xorHex (xorHex (bytesToHex bs) mask) mask = bytesToHex bs
  | [], mask, _, _ => by simp [bytesToHex, xorHex, xorHexGo]
  | b :: bs, mask, hb, hlen => by
    rcases mask with - | ⟨m1, mask⟩
    · simp at hlen
    rcases mask with - | ⟨m2, mask⟩
    · simp at hlen
      omega
    have hb0 : b < 256 := hb b (by simp)
    have hlen' : mask.length = 2 * bs.length := by
      simp at hlen
      omega
    have ih := xorHex_mask_cancel bs mask (fun x hx => hb x (by simp [hx])) hlen'
    have hpv : parseHexPrefix2 [hexDigit (b / 16), hexDigit (b % 16)] = b := by
      have := parse_byteToHexJS hb0
      rwa [byteToHexJS] at this
    have hmv : parseHexPrefix2 [m1, m2] < 256 := parseHexPrefix2_lt m1 m2
    have hxlt : b ^^^ parseHexPrefix2 [m1, m2] < 256 := by
      have h256 : (256 : Nat) = 2 ^ 8 := by norm_num
      rw [h256]
      exact Nat.xor_lt_two_pow (by omega) (by omega)
    have hpv2 : parseHexPrefix2 [hexDigit ((b ^^^ parseHexPrefix2 [m1, m2]) / 16),
        hexDigit ((b ^^^ parseHexPrefix2 [m1, m2]) % 16)] =
        b ^^^ parseHexPrefix2 [m1, m2] := by
      have := parse_byteToHexJS hxlt
      rwa [byteToHexJS] at this
    have step1 : xorHex (bytesToHex (b :: bs)) (m1 :: m2 :: mask) =
        byteToHexJS (b ^^^ parseHexPrefix2 [m1, m2]) ++
          xorHex (bytesToHex bs) mask := by
      rw [bytesToHex_cons, Nat.mod_eq_of_lt hb0, xorHex, xorHexGo_cons2, hpv]
      rfl
    have step2 : xorHex (byteToHexJS (b ^^^ parseHexPrefix2 [m1, m2]) ++
        xorHex (bytesToHex bs) mask) (m1 :: m2 :: mask) =
        byteToHexJS b ++ xorHex (xorHex (bytesToHex bs) mask) mask := by
      simp only [byteToHexJS, List.cons_append, List.nil_append]
      rw [xorHex, xorHexGo_cons2, hpv2, Nat.xor_cancel_right]
      simp only [byteToHexJS, List.cons_append, List.nil_append]
      rfl
    rw [step1, step2, ih, bytesToHex_cons, Nat.mod_eq_of_lt hb0, byteToHexJS]
    rfl

lemma maskFor_length (k : JSStr) (hk : k ≠ []) (len : Nat) :
    (maskFor k len).length = len := by
  rw [maskFor]
  have hkl : 0 < k.length := List.length_pos.mpr hk
  have hflat : ((List.replicate ((len + k.length - 1) / k.length) k).flatten).length =
      ((len + k.length - 1) / k.length) * k.length := by
    simp [List.length_flatten, Function.comp]
  have h1 : len + k.length - 1 <
      k.length * ((len + k.length - 1) / k.length) + k.length := by
    conv_lhs => rw [← Nat.div_add_mod (len + k.length - 1) k.length]
    exact Nat.add_lt_add_left (Nat.mod_lt _ hkl) _
  have hge : len ≤ ((len + k.length - 1) / k.length) * k.length := by
    rw [Nat.mul_comm]
    omega
  rw [List.length_take, hflat, Nat.min_eq_left hge]

lemma hexToBytes_bytesToHex : ∀ bs : List Nat, (∀ b ∈ bs, b < 256) →
    hexToBytes (bytesToHex bs) = bs
  | [], _ => rfl
  | b :: bs, h => by
    have hb0 : b < 256 := h b (by simp)
    have hmod : b % 256 = b := Nat.mod_eq_of_lt hb0
    rw [bytesToHex_cons, hmod, hexToBytes, hexVal_hexDigit (by omega),
      hexVal_hexDigit (by omega)]
    dsimp only
    rw [hexToBytes_bytesToHex bs (fun x hx => h x (by simp [hx]))]
    congr 1
    omega

lemma dropLit_append : ∀ l s : JSStr, dropLit l (l ++ s) = some s
  | [], s => by cases s <;> rfl
  | c :: l, s => by
    rw [List.cons_append, dropLit, if_pos rfl]
    exact dropLit_append l s

lemma takeStr_append : ∀ (p rest : JSStr), (∀ c ∈ p, c ≠ 34 ∧ c ≠ 92) →
    takeStr (p ++ 34 :: rest) = some (p, rest)
  | [], rest, _ => by simp [takeStr]
  | c :: p, rest, h => by
    have hc := h c (by simp)
    rw [List.cons_append, takeStr, if_neg hc.1, if_neg hc.2,
      takeStr_append p rest (fun x hx => h x (by simp [hx]))]
    rfl

lemma jsonParse_stringify (kp : KeyPairB)
    (hpk : ∀ c ∈ kp.publicKey, c ≠ 34 ∧ c ≠ 92)
    (hsk : ∀ c ∈ kp.secretKey, c ≠ 34 ∧ c ≠ 92) :
    jsonParseKP (jsonStringifyKP kp) = some kp := by
  have h1 : kp.publicKey ++ (strBytes "\",\"secretKey\":\"" ++
      (kp.secretKey ++ strBytes "\"\x7d")) =
      kp.publicKey ++ 34 :: (strBytes ",\"secretKey\":\"" ++
        (kp.secretKey ++ strBytes "\"\x7d")) := rfl
  have h2 : kp.secretKey ++ strBytes "\"\x7d" =
      kp.secretKey ++ 34 :: strBytes "\x7d" := rfl
  rw [jsonParseKP, jsonStringifyKP, List.append_assoc, List.append_assoc,
    List.append_assoc, dropLit_append, h1]
  dsimp only
  rw [takeStr_append _ _ hpk]
  dsimp only
  rw [dropLit_append, h2]
  dsimp only
  rw [takeStr_append _ _ hsk]
  dsimp only
  rw [if_pos rfl]

/-- **C8 (amended).** The sealed backup has **no authentication**: with
the (fixed, built-in) passphrase mask, importing an **unmodified**
exported blob restores exactly the identity that was sealed, for any
digest primitive; but a corrupted blob can be silently accepted and
overwrite the stored keypair with a different identity, with no
`CryptoError` — flipping a sealed byte flips the same recovered payload
byte regardless of the derived key (see the counterexample). -/
theorem C8_import_export_roundtrip (sha : JSStr → JSStr) (kp : KeyPairB)
    (hkey : deriveKey sha ≠ [])
    (hpk : ∀ c ∈ kp.publicKey, c < 256 ∧ c ≠ 34 ∧ c ≠ 92)
    (hsk : ∀ c ∈ kp.secretKey, c < 256 ∧ c ≠ 34 ∧ c ≠ 92) :
    importSealed sha (exportSealed sha kp) = some kp := by
  have hpay : ∀ c ∈ jsonStringifyKP kp, c < 256 := by
    intro c hc
    rw [jsonStringifyKP] at hc
    simp only [List.append_assoc, List.mem_append] at hc
    rcases hc with hc | hc | hc | hc | hc
    · revert hc
      revert c
      decide
    · exact (hpk c hc).1
    · revert hc
      revert c
      decide
    · exact (hsk c hc).1
    · revert hc
      revert c
      decide
  have hmask1 : (maskFor (deriveKey sha)
      (bytesToHex (jsonStringifyKP kp)).length).length =
      2 * (jsonStringifyKP kp).length := by
    rw [maskFor_length _ hkey, bytesToHex_length]
  have hslen : (exportSealed sha kp).length = 2 * (jsonStringifyKP kp).length := by
    rw [exportSealed]
    exact xorHex_length _ _ hmask1
  rw [importSealed, hslen, ← bytesToHex_length]
  simp only [exportSealed]
  rw [xorHex_mask_cancel _ _ hpay
      (by rw [maskFor_length _ hkey, bytesToHex_length]),
    hexToBytes_bytesToHex _ hpay]
  exact jsonParse_stringify kp (fun c hc => (hpk c hc).2)
    (fun c hc => (hsk c hc).2)

/-- Witness for the C8 round trip at the concrete digest and keypair. -/
theorem C8_import_export_roundtrip_witness :
    deriveKey sha0 ≠ [] ∧
    importSealed sha0 (exportSealed sha0 kp0) = some kp0 :=
  ⟨by rw [deriveKey_sha0]; simp,
    C8_import_export_roundtrip sha0 kp0 (by rw [deriveKey_sha0]; simp)
      (by decide) (by decide)⟩

end Settings

end Gossipify
